import Mathlib

/-!
Cake thief (unbounded knapsack) and nuts-and-bolts matching.

A shallow embedding of `algorithms/GreedyCakeThief/greedycakethief.cpp` and
`algorithms/NutsNBolts/nutsnbolts.cpp`, followed by the properties proved about them.

Conventions of the embedding:
* `std::vector<int>` and `int[]` are `List Int`; every indexed access is bounds-checked, and an
  access outside the storage is reported as a fault instead of being given a meaning.
* Loops that the source cannot be seen to leave run on a step budget (`fuel`); running out of
  it is reported as a fault.
* The cake thief is embedded twice. In `CakeThief` the program is idealised: `int` is `Int`
  without overflow, `float` ratios are exact rationals, and the priority queue and `sort` are
  insertion-based. The properties of the algorithm itself are proved there.
* In `CakeThief.Machine` the same functions run on the types of the machine: `int` has 32 bits
  and an overflow is reported as a fault, `float` is IEEE 754 binary32 with rounding to nearest,
  ties to even, and the sequence in which the library's queue or `sort` delivers the cakes is a
  parameter, constrained only by the comparator. The properties that depend on the width of
  `int` or on the rounding of the ratios are proved there.
* In `NutsNBolts`, `int` is `Int`: the code compares and moves the values and performs no
  arithmetic on them, only on indices into the vectors.
-/

namespace Cpp

/-- Ways in which a run leaves defined behaviour, or fails to end, without the source throwing
an exception of its own. -/
inductive Fault where
  /-- The operator `new int[n]` was asked for a negative number of cells. -/
  | badArrayNewLength
  /-- An array or vector cell outside the storage was read or written. -/
  | outOfBounds
  /-- Integer division or remainder by zero. -/
  | divisionByZero
  /-- The result of an `int` operation does not fit in 32 bits: undefined behaviour. -/
  | signedOverflow
  /-- A loop or recursion was still running when the step budget ran out. -/
  | outOfFuel
deriving DecidableEq, Repr

deriving instance DecidableEq for Except

/-- Read of `a[i]`. -/
def readAt (a : List Int) (i : Int) : Except Fault Int :=
  if i < 0 then .error .outOfBounds
  else match a[i.toNat]? with
    | some x => .ok x
    | none => .error .outOfBounds

/-- Write `a[i] = x`. -/
def writeAt (a : List Int) (i : Int) (x : Int) : Except Fault (List Int) :=
  if i < 0 then .error .outOfBounds
  else if i.toNat < a.length then .ok (a.set i.toNat x)
  else .error .outOfBounds

end Cpp

namespace CakeThief

open Cpp

/-- Cake type structure (`struct Cake`): a weight and a value. -/
structure Cake where
  weight : Int
  value : Int
deriving DecidableEq, Repr

/-- The allocation `new int[n]()`: `n` value-initialised (zero) cells. -/
def newArray (n : Int) : Except Fault (List Int) :=
  if n < 0 then .error .badArrayNewLength else .ok (List.replicate n.toNat 0)

/-- Body of the inner loop of `maxValueIterative`:
`max_value[k + weight] = max(max_value[k + weight], max_value[k] + value)`. -/
def relax (c : Cake) (max_value : List Int) (k : Int) : Except Fault (List Int) := do
  let cur ← readAt max_value (k + c.weight)
  let prev ← readAt max_value k
  writeAt max_value (k + c.weight) (max cur (prev + c.value))

/-- The loop `for (int k = 0; (k + weight) <= capacity; k++)`, entered at `k` with `trips`
iterations left; `maxValueIterative` starts it with exactly the trip count of the loop, so the
guard fails when the counter reaches zero. -/
def innerLoop (capacity : Int) (c : Cake) : Nat → Int → List Int → Except Fault (List Int)
  | 0, _, max_value => .ok max_value
  | trips + 1, k, max_value =>
    if k + c.weight ≤ capacity then do
      let max_value ← relax c max_value k
      innerLoop capacity c trips (k + 1) max_value
    else .ok max_value

/-- Number of iterations of `for (int k = 0; (k + weight) <= capacity; k++)`. -/
def tripCount (capacity : Int) (c : Cake) : Nat := (capacity - c.weight + 1).toNat

/-- Dynamic programming bottom-up solution (`maxValueIterative`). -/
def maxValueIterative (capacity : Int) (cakes : List Cake) : Except Fault Int := do
  let max_value ← newArray (capacity + 1)
  let max_value ← cakes.foldlM
    (fun max_value c => innerLoop capacity c (tripCount capacity c) 0 max_value) max_value
  readAt max_value capacity

/-- Utility routine to calculate the value/weight ratio (`getRatio`); the `float` quotient is
taken exactly. For weight 0, where the source obtains an infinity or a NaN, Lean's convention
`x / 0 = 0` applies, so the greedy functions are only meaningful for non-zero weights. -/
def getRatio (c : Cake) : ℚ := (c.value : ℚ) / (c.weight : ℚ)

/-- The comparator `cakeComparator::operator()`; the lambda passed to `sort` in
`maxValueGreedySort` has the same body. -/
def cakeComparator (A B : Cake) : Bool :=
  let ratioA := getRatio A
  let ratioB := getRatio B
  if ratioA > ratioB then false else if ratioA = ratioB then decide (A.weight > B.weight) else true

/-- The method `priority_queue::push`. The queue is represented by the sequence in which `top`/`pop`
deliver its elements: greatest element under the comparator first. -/
def push (c : Cake) : List Cake → List Cake
  | [] => [c]
  | d :: q => if cakeComparator c d then d :: push c q else c :: d :: q

/-- Building the queue: every cake is pushed in turn. -/
def buildQueue (cakes : List Cake) : List Cake :=
  cakes.foldl (fun queue c => push c queue) []

/-- The inner loop `while (temp_capacity > 0 && !temp_queue.empty())` of `maxValueGreedyPQueue`;
the head of the list is `temp_queue.top()` and the tail is the queue after `pop()`. Returns
`(repeat, temp_value)`. -/
def pqPass : List Cake → Bool → Int → Int → ℚ → Except Fault (Bool × Int)
  | [], rep, temp_value, _, _ => .ok (rep, temp_value)
  | c :: temp_queue, rep, temp_value, temp_capacity, prev_ratio =>
    if temp_capacity > 0 then
      let rep := if prev_ratio = getRatio c then true else rep
      if c.weight = 0 then .error .divisionByZero
      else pqPass temp_queue rep (temp_value + temp_capacity.tdiv c.weight * c.value)
        (temp_capacity.tmod c.weight) (getRatio c)
    else .ok (rep, temp_value)

/-- The outer loop `while (!queue.empty())` of `maxValueGreedyPQueue`. -/
def pqLoop (capacity : Int) : List Cake → Int → Except Fault Int
  | [], max_value => .ok max_value
  | c :: queue, max_value => do
    let (rep, temp_value) ← pqPass (c :: queue) false 0 capacity (-1)
    let max_value := max max_value temp_value
    if !rep then .ok max_value else pqLoop capacity queue max_value

/-- Greedy solution implemented with a priority queue (`maxValueGreedyPQueue`). -/
def maxValueGreedyPQueue (capacity : Int) (cakes : List Cake) : Except Fault Int :=
  pqLoop capacity (buildQueue cakes) 0

/-- Insertion of one element into a sequence sorted by the comparator taken as "less than". -/
def sortInsert (c : Cake) : List Cake → List Cake
  | [] => [c]
  | d :: l => if cakeComparator c d then c :: d :: l else d :: sortInsert c l

/-- The call `sort(cakes.begin(), cakes.end(), comparator)`: ascending order under the comparator. -/
def sortCakes (cakes : List Cake) : List Cake :=
  cakes.foldr sortInsert []

/-- The loop `for (int j = i; temp_capacity > 0 && j < cakes.size(); j++)` of
`maxValueGreedySort`, with `left = cakes.size() - j` iterations still allowed by `j`. As in the
source, the body reads `cakes[i]`, not `cakes[j]`. Returns `(repeat, temp_value)`. -/
def sortPass (cakes : List Cake) (i : Nat) : Nat → Bool → Int → Int → ℚ → Except Fault (Bool × Int)
  | 0, rep, temp_value, _, _ => .ok (rep, temp_value)
  | left + 1, rep, temp_value, temp_capacity, prev_ratio =>
    if temp_capacity > 0 then
      match cakes[i]? with
      | none => .error .outOfBounds
      | some c =>
        let current_ratio := getRatio c
        let rep := if prev_ratio = current_ratio then true else rep
        if c.weight = 0 then .error .divisionByZero
        else sortPass cakes i left rep (temp_value + temp_capacity.tdiv c.weight * c.value)
          (temp_capacity.tmod c.weight) current_ratio
    else .ok (rep, temp_value)

/-- The outer loop `while (i < cakes.size())` of `maxValueGreedySort`, with
`left = cakes.size() - i`. -/
def sortLoop (capacity : Int) (cakes : List Cake) : Nat → Nat → Int → Except Fault Int
  | 0, _, max_value => .ok max_value
  | left + 1, i, max_value => do
    let (rep, temp_value) ← sortPass cakes i (cakes.length - i) false 0 capacity (-1)
    let max_value := max max_value temp_value
    if !rep then .ok max_value else sortLoop capacity cakes left (i + 1) max_value

/-- Greedy solution using in-place sorting (`maxValueGreedySort`). -/
def maxValueGreedySort (capacity : Int) (cakes : List Cake) : Except Fault Int :=
  let cakes := sortCakes cakes
  sortLoop capacity cakes cakes.length 0 0

/-- The cake types of `main`. -/
def canonicalCakes : List Cake := [⟨2, 2⟩, ⟨3, 3⟩, ⟨5, 5⟩, ⟨6, 6⟩]

end CakeThief

namespace NutsNBolts

open Cpp

/-- The two exceptions of the source. -/
inductive Thrown where
  /-- The exception `throw "Missing nuts and bolts"`: the invalid-input error. -/
  | invalidInput
  /-- The exception `throw "Nuts and bolts not unique or missing"`: the matching-violation
  error. -/
  | matchingViolation
deriving DecidableEq, Repr

/-- How a call of `sortNutsBolts` ends. Both vectors are passed by reference, so the caller
sees their contents also when an exception leaves the call. -/
inductive Outcome where
  /-- Normal return, with the final contents of `nuts` and `bolts`. -/
  | returned (nuts bolts : List Int)
  /-- An exception reached the caller; `nuts` and `bolts` as they were at the `throw`. -/
  | thrown (e : Thrown) (nuts bolts : List Int)
  /-- No defined result: an access out of bounds, or a run that does not end on the step
  budget. -/
  | fault (f : Fault)
deriving DecidableEq, Repr

/-- The function `swap(A, from, to)`: `temp = A[to]; A[to] = A[from]; A[from] = temp`, with
`src` for `from` and `dst` for `to`. -/
def swap (A : List Int) (src dst : Int) : Except Fault (List Int) := do
  let temp ← readAt A dst
  let moved ← readAt A src
  let A ← writeAt A dst moved
  writeAt A src temp

/-- The loop `while (start < end && A[start] < pivot) { start++; }`; returns the final `start`.
The parameter `stop` is the source's `end`. -/
def scanUp (A : List Int) (stop pivot : Int) : Nat → Int → Except Fault Int
  | 0, _ => .error .outOfFuel
  | fuel + 1, start =>
    if start < stop then do
      let x ← readAt A start
      if x < pivot then scanUp A stop pivot fuel (start + 1) else .ok start
    else .ok start

/-- The loop `while (start < end && A[end] > pivot) { end--; }`; returns the final `end`. -/
def scanDown (A : List Int) (start pivot : Int) : Nat → Int → Except Fault Int
  | 0, _ => .error .outOfFuel
  | fuel + 1, stop =>
    if start < stop then do
      let x ← readAt A stop
      if x > pivot then scanDown A start pivot fuel (stop - 1) else .ok stop
    else .ok stop

/-- The assignment `p = (A[start] == pivot) ? start : (A[end] == pivot) ? end : p`. -/
def updateP (A : List Int) (start stop pivot p : Int) : Except Fault Int := do
  let x ← readAt A start
  if x = pivot then .ok start
  else do
    let y ← readAt A stop
    if y = pivot then .ok stop else .ok p

/-- The outer loop `while (start < end)` of `partition`; returns the final `A`, `end` and `p`. -/
def partitionLoop (pivot : Int) : Nat → List Int → Int → Int → Int →
    Except Fault (List Int × Int × Int)
  | 0, _, _, _, _ => .error .outOfFuel
  | fuel + 1, A, start, stop, p =>
    if start < stop then do
      let start ← scanUp A stop pivot fuel start
      let stop ← scanDown A start pivot fuel stop
      if start ≤ stop then do
        let A ← swap A start stop
        let p ← updateP A start stop pivot p
        partitionLoop pivot fuel A start stop p
      else partitionLoop pivot fuel A start stop p
    else .ok (A, stop, p)

/-- Modified quick-sort partition (`partition`): returns the vector after partitioning and the
returned index, `-1` when the pivot was never seen. -/
def partition (fuel : Nat) (A : List Int) (start stop pivot : Int) :
    Except Fault (List Int × Int) := do
  let (A, stop, p) ← partitionLoop pivot fuel A start stop (-1)
  .ok (A, if p < 0 then -1 else stop)

/-- Main worker function `sortNutsBolts(nuts, bolts, start, end)`. -/
def sortNutsBoltsRange : Nat → List Int → List Int → Int → Int → Outcome
  | 0, _, _, _, _ => .fault .outOfFuel
  | fuel + 1, nuts, bolts, start, stop =>
    if stop - start + 1 < 2 then .returned nuts bolts
    else
      match readAt bolts ((start + stop).tdiv 2) with
      | .error f => .fault f
      | .ok pivot =>
        match partition fuel nuts start stop pivot with
        | .error f => .fault f
        | .ok (nuts, n) =>
          match readAt nuts n with
          | .error f => .fault f
          | .ok matching =>
            match partition fuel bolts start stop matching with
            | .error f => .fault f
            | .ok (bolts, b) =>
              if n < 0 ∨ n ≠ b then .thrown .matchingViolation nuts bolts
              else
                match sortNutsBoltsRange fuel nuts bolts start (n - 1) with
                | .returned nuts bolts => sortNutsBoltsRange fuel nuts bolts (n + 1) stop
                | other => other

/-- Main sorting function `sortNutsBolts(nuts, bolts)`. The outcome of
`random_shuffle(bolts.begin(), bolts.end())` is given by `shuffle`, which the theorems take to
be an arbitrary function returning a permutation of its argument. The argument
`nuts.size()-1` becomes the `int` -1 for empty vectors. -/
def sortNutsBolts (shuffle : List Int → List Int) (fuel : Nat) (nuts bolts : List Int) :
    Outcome :=
  if nuts.length ≠ bolts.length then .thrown .invalidInput nuts bolts
  else
    let bolts := shuffle bolts
    sortNutsBoltsRange fuel nuts bolts 0 ((nuts.length : Int) - 1)

end NutsNBolts

namespace CakeThief

open Cpp

/-- Total weight of a selection of cakes (a multiset, given as a list). -/
def totalWeight (sel : List Cake) : Int := (sel.map Cake.weight).sum

/-- Total value of a selection of cakes. -/
def totalValue (sel : List Cake) : Int := (sel.map Cake.value).sum

/-- A selection is feasible when it only uses the given cake types (each any number of times)
and its total weight fits the capacity. -/
def Feasible (cakes : List Cake) (capacity : Int) (sel : List Cake) : Prop :=
  (∀ c ∈ sel, c ∈ cakes) ∧ totalWeight sel ≤ capacity

instance (cakes : List Cake) (capacity : Int) (sel : List Cake) :
    Decidable (Feasible cakes capacity sel) := by
  unfold Feasible; infer_instance

/-- The value `x` is the maximum total value over the feasible selections: some feasible
selection attains it and none exceeds it. -/
def IsMaxValue (cakes : List Cake) (capacity : Int) (x : Int) : Prop :=
  (∃ sel, Feasible cakes capacity sel ∧ totalValue sel = x) ∧
    ∀ sel, Feasible cakes capacity sel → totalValue sel ≤ x

/-- Invariant between two passes of `maxValueIterative`: every cell `j` within the capacity holds
the maximum value for capacity `j` over the cake types `S` processed so far. -/
def Table (capacity : Int) (S : List Cake) (a : List Int) : Prop :=
  ∀ j : Int, 0 ≤ j → j ≤ capacity → ∃ x, readAt a j = .ok x ∧ IsMaxValue S j x

/-- Invariant inside the pass for cake `c`, before the iteration at `k`: the cells below
`k + c.weight` already account for `c`, the others do not yet. -/
def Mid (capacity : Int) (S : List Cake) (c : Cake) (k : Int) (a : List Int) : Prop :=
  ∀ j : Int, 0 ≤ j → j ≤ capacity → ∃ x, readAt a j = .ok x ∧
    if j < k + c.weight then IsMaxValue (c :: S) j x else IsMaxValue S j x

/-- Value of one greedy pass as the text describes it: with `r` the remaining capacity, each
cake `(w, v)` of the sequence in turn adds `(r div w) * v` and leaves `r mod w`. -/
def singlePass : Int → List Cake → Int
  | _, [] => 0
  | r, c :: rest => r / c.weight * c.value + singlePass (r % c.weight) rest

end CakeThief

namespace NutsNBolts

/-- The cells `A[start..stop]`, both ends included. -/
def segment (A : List Int) (start stop : Int) : List Int :=
  (A.drop start.toNat).take (stop - start + 1).toNat

end NutsNBolts

namespace CakeThief.Machine

open Cpp

/-- Largest value of a 32-bit `int`. -/
def INT_MAX : Int := 2147483647

/-- Smallest value of a 32-bit `int`. -/
def INT_MIN : Int := -2147483648

/-- The integer is a value of the type `int`. -/
def isInt (x : Int) : Prop := INT_MIN ≤ x ∧ x ≤ INT_MAX

instance (x : Int) : Decidable (isInt x) := by
  unfold isInt; infer_instance

/-- Result of an `int` operation whose mathematical value is `x`: the value when it is
representable, a signed overflow otherwise. -/
def int32 (x : Int) : Except Fault Int :=
  if INT_MIN ≤ x ∧ x ≤ INT_MAX then .ok x else .error .signedOverflow

/-- The `int` quotient `a / b`, truncated towards zero. -/
def intDiv (a b : Int) : Except Fault Int :=
  if b = 0 then .error .divisionByZero else int32 (a.tdiv b)

/-- The `int` remainder `a % b`; it is undefined when the quotient is not representable. -/
def intMod (a b : Int) : Except Fault Int :=
  if b = 0 then .error .divisionByZero
  else do
    let _ ← int32 (a.tdiv b)
    .ok (a.tmod b)

/-- Body of the inner loop of `maxValueIterative`:
`max_value[k + weight] = max(max_value[k + weight], max_value[k] + value)`, on `int`. -/
def relax (c : Cake) (max_value : List Int) (k : Int) : Except Fault (List Int) := do
  let i ← int32 (k + c.weight)
  let cur ← readAt max_value i
  let prev ← readAt max_value k
  let candidate ← int32 (prev + c.value)
  writeAt max_value i (max cur candidate)

/-- The loop `for (int k = 0; (k + weight) <= capacity; k++)` on `int`, entered at `k` with
`trips` iterations left, as `CakeThief.innerLoop`. -/
def innerLoop (capacity : Int) (c : Cake) : Nat → Int → List Int → Except Fault (List Int)
  | 0, _, max_value => .ok max_value
  | trips + 1, k, max_value => do
    let s ← int32 (k + c.weight)
    if s ≤ capacity then do
      let max_value ← relax c max_value k
      let k ← int32 (k + 1)
      innerLoop capacity c trips k max_value
    else .ok max_value

/-- Dynamic programming bottom-up solution (`maxValueIterative`) on 32-bit `int`. -/
def maxValueIterative (capacity : Int) (cakes : List Cake) : Except Fault Int := do
  let size ← int32 (capacity + 1)
  let max_value ← newArray size
  let max_value ← cakes.foldlM
    (fun max_value c => innerLoop capacity c (tripCount capacity c) 0 max_value) max_value
  readAt max_value capacity

/-- A value of the type `float` (IEEE 754 binary32): a finite number, an infinity or a NaN. The
sign of a zero is not kept; no comparison of the source depends on it. -/
inductive Float32 where
  | finite (x : ℚ)
  | infinity (negative : Bool)
  | nan
deriving DecidableEq

/-- The power `2 ^ e` for an integer exponent. -/
def pow2 (e : Int) : ℚ :=
  if 0 ≤ e then (2 : ℚ) ^ e.toNat else 1 / (2 : ℚ) ^ (-e).toNat

/-- Number of halvings that bring `n` below 2, with `steps` halvings allowed. -/
def halvings : Nat → Nat → Nat
  | 0, _ => 0
  | steps + 1, n => if n < 2 then 0 else halvings steps (n / 2) + 1

/-- The binary logarithm of a natural number, rounded down (0 for 0). -/
def log2 (n : Nat) : Nat := halvings n n

/-- The binary exponent of a positive rational `x`: the `e` with `2 ^ e ≤ x < 2 ^ (e + 1)`. The
difference of the binary logarithms of numerator and denominator is `e` or `e + 1`. -/
def exponent (x : ℚ) : Int :=
  let e := (log2 x.num.toNat : Int) - (log2 x.den : Int)
  if pow2 e ≤ x then e else e - 1

/-- Rounding of a non-negative rational to the nearest integer, ties to the even one. -/
def roundHalfEven (n : ℚ) : Int :=
  let f := n.num / (n.den : Int)
  if n - f < 1 / 2 then f
  else if 1 / 2 < n - f then f + 1
  else if f % 2 = 0 then f else f + 1

/-- Rounding of a rational to the nearest `float`, ties to even: 24 significant bits. The
arguments that occur, the `int` values and the quotients of two of them, have magnitudes
between `2 ^ -31` and `2 ^ 31`, inside the normal range of the format, where the spacing at
exponent `e` is `2 ^ (e - 23)`. -/
def roundToFloat (x : ℚ) : ℚ :=
  if x = 0 then 0
  else
    let quantum := pow2 (exponent |x| - 23)
    let rounded := (roundHalfEven (|x| / quantum) : ℚ) * quantum
    if 0 < x then rounded else -rounded

/-- The `float` comparison `a > b`. -/
def Float32.gt : Float32 → Float32 → Bool
  | .finite a, .finite b => decide (b < a)
  | .finite _, .infinity negative => negative
  | .infinity negative, .finite _ => !negative
  | .infinity n1, .infinity n2 => !n1 && n2
  | .nan, _ => false
  | _, .nan => false

/-- The `float` comparison `a == b`. -/
def Float32.eq : Float32 → Float32 → Bool
  | .finite a, .finite b => decide (a = b)
  | .infinity n1, .infinity n2 => n1 == n2
  | _, _ => false

/-- Utility routine to calculate the value/weight ratio (`getRatio`):
`c.value / static_cast<float>(c.weight)`. Both operands are converted to `float` and the
quotient is rounded to `float`; a zero weight gives an infinity, or a NaN for the value 0. -/
def getRatio (c : Cake) : Float32 :=
  let value := roundToFloat c.value
  let weight := roundToFloat c.weight
  if weight = 0 then
    if value = 0 then .nan else .infinity (decide (value < 0))
  else .finite (roundToFloat (value / weight))

/-- The quotient that `getRatio` returns for a cake of non-zero weight: the `float` nearest to
the quotient of the value and the weight, after both are converted to `float`. -/
def floatRatio (c : Cake) : ℚ :=
  roundToFloat (roundToFloat c.value / roundToFloat c.weight)

/-- The comparator `cakeComparator::operator()` on `float` ratios; the lambda passed to `sort`
has the same body. -/
def cakeComparator (A B : Cake) : Bool :=
  let ratioA := getRatio A
  let ratioB := getRatio B
  if ratioA.gt ratioB then false else if ratioA.eq ratioB then decide (A.weight > B.weight)
  else true

/-- The sequence is one in which `top`/`pop` may deliver the cakes pushed: the same cakes, none
of them below a later one under the comparator. -/
def IsPopOrder (cakes order : List Cake) : Prop :=
  order.Perm cakes ∧ order.Pairwise (fun a b => cakeComparator a b = false)

instance (cakes order : List Cake) : Decidable (IsPopOrder cakes order) := by
  unfold IsPopOrder; infer_instance

/-- The sequence is one that `sort` may leave: the same cakes, none of them below an earlier
one under the comparator. -/
def IsSortOrder (cakes order : List Cake) : Prop :=
  order.Perm cakes ∧ order.Pairwise (fun a b => cakeComparator b a = false)

instance (cakes order : List Cake) : Decidable (IsSortOrder cakes order) := by
  unfold IsSortOrder; infer_instance

/-- One implementation of `priority_queue::push` on the sequence of delivery. -/
def push (c : Cake) : List Cake → List Cake
  | [] => [c]
  | d :: q => if cakeComparator c d then d :: push c q else c :: d :: q

/-- One implementation of the queue: the sequence of delivery after every cake is pushed. -/
def buildQueue (cakes : List Cake) : List Cake :=
  cakes.foldl (fun queue c => push c queue) []

/-- Insertion of one element into a sequence sorted by the comparator. -/
def sortInsert (c : Cake) : List Cake → List Cake
  | [] => [c]
  | d :: l => if cakeComparator c d then c :: d :: l else d :: sortInsert c l

/-- One implementation of `sort(cakes.begin(), cakes.end(), comparator)`. -/
def sortCakes (cakes : List Cake) : List Cake :=
  cakes.foldr sortInsert []

/-- The inner loop `while (temp_capacity > 0 && !temp_queue.empty())` of
`maxValueGreedyPQueue` on `int` and `float`; returns `(repeat, temp_value)`. -/
def pqPass : List Cake → Bool → Int → Int → Float32 → Except Fault (Bool × Int)
  | [], rep, temp_value, _, _ => .ok (rep, temp_value)
  | c :: temp_queue, rep, temp_value, temp_capacity, prev_ratio =>
    if temp_capacity > 0 then do
      let rep := if prev_ratio.eq (getRatio c) then true else rep
      let count ← intDiv temp_capacity c.weight
      let gain ← int32 (count * c.value)
      let temp_value ← int32 (temp_value + gain)
      let temp_capacity ← intMod temp_capacity c.weight
      pqPass temp_queue rep temp_value temp_capacity (getRatio c)
    else .ok (rep, temp_value)

/-- The outer loop `while (!queue.empty())` of `maxValueGreedyPQueue`. -/
def pqLoop (capacity : Int) : List Cake → Int → Except Fault Int
  | [], max_value => .ok max_value
  | c :: queue, max_value => do
    let (rep, temp_value) ← pqPass (c :: queue) false 0 capacity (.finite (-1))
    let max_value := max max_value temp_value
    if !rep then .ok max_value else pqLoop capacity queue max_value

/-- Greedy solution implemented with a priority queue (`maxValueGreedyPQueue`) on `int` and
`float`. The sequence in which the library's queue delivers the cakes is given by `popOrder`;
the theorems take it to be any function whose result is a pop order of its argument. -/
def maxValueGreedyPQueue (popOrder : List Cake → List Cake) (capacity : Int)
    (cakes : List Cake) : Except Fault Int :=
  pqLoop capacity (popOrder cakes) 0

/-- The loop `for (int j = i; temp_capacity > 0 && j < cakes.size(); j++)` of
`maxValueGreedySort` on `int` and `float`, with `left = cakes.size() - j`; the body reads
`cakes[i]`. Returns `(repeat, temp_value)`. -/
def sortPass (cakes : List Cake) (i : Nat) :
    Nat → Bool → Int → Int → Float32 → Except Fault (Bool × Int)
  | 0, rep, temp_value, _, _ => .ok (rep, temp_value)
  | left + 1, rep, temp_value, temp_capacity, prev_ratio =>
    if temp_capacity > 0 then
      match cakes[i]? with
      | none => .error .outOfBounds
      | some c => do
        let current_ratio := getRatio c
        let rep := if prev_ratio.eq current_ratio then true else rep
        let count ← intDiv temp_capacity c.weight
        let gain ← int32 (count * c.value)
        let temp_value ← int32 (temp_value + gain)
        let temp_capacity ← intMod temp_capacity c.weight
        sortPass cakes i left rep temp_value temp_capacity current_ratio
    else .ok (rep, temp_value)

/-- The outer loop `while (i < cakes.size())` of `maxValueGreedySort`, with
`left = cakes.size() - i`. -/
def sortLoop (capacity : Int) (cakes : List Cake) : Nat → Nat → Int → Except Fault Int
  | 0, _, max_value => .ok max_value
  | left + 1, i, max_value => do
    let (rep, temp_value) ← sortPass cakes i (cakes.length - i) false 0 capacity (.finite (-1))
    let max_value := max max_value temp_value
    if !rep then .ok max_value else sortLoop capacity cakes left (i + 1) max_value

/-- Greedy solution using in-place sorting (`maxValueGreedySort`) on `int` and `float`. The
sequence that the library's `sort` leaves is given by `sort`; the theorems take it to be any
function whose result is a sort order of its argument. -/
def maxValueGreedySort (sort : List Cake → List Cake) (capacity : Int) (cakes : List Cake) :
    Except Fault Int :=
  let cakes := sort cakes
  sortLoop capacity cakes cakes.length 0 0

end CakeThief.Machine

namespace Cpp

theorem readAt_eq_ok_iff (a : List Int) (i x : Int) :
    readAt a i = .ok x ↔ 0 ≤ i ∧ a[i.toNat]? = some x := by
  unfold readAt
  by_cases hi : i < 0
  · simp [hi]
  · simp only [hi, if_false]
    cases h : a[i.toNat]? with
    | none => simp
    | some y => simp; intro _; omega

theorem writeAt_ok (a : List Int) (i x y : Int) (h : readAt a i = .ok y) :
    ∃ a', writeAt a i x = .ok a' := by
  obtain ⟨h0, h1⟩ := (readAt_eq_ok_iff a i y).1 h
  have hlt : i.toNat < a.length := by
    rcases List.getElem?_eq_some_iff.1 h1 with ⟨hl, -⟩
    exact hl
  refine ⟨a.set i.toNat x, ?_⟩
  unfold writeAt
  simp [not_lt.2 h0, hlt]

theorem readAt_writeAt (a a' : List Int) (i x j : Int) (h : writeAt a i x = .ok a')
    (hj : 0 ≤ j) : readAt a' j = if j = i then .ok x else readAt a j := by
  unfold writeAt at h
  by_cases hi : i < 0
  · simp [hi] at h
  · simp only [hi, if_false] at h
    by_cases hlt : i.toNat < a.length
    · simp only [hlt, if_true] at h
      injection h with h
      subst h
      unfold readAt
      simp only [not_lt.2 hj, if_false]
      by_cases hji : j = i
      · subst hji
        simp [hlt]
      · have hne : i.toNat ≠ j.toNat := by omega
        simp [hji, List.getElem?_set_ne hne]
    · simp [hlt] at h

theorem readAt_append_cons (X : List Int) (a : Int) (Y : List Int) (i : Int)
    (hi : i = X.length) : readAt (X ++ a :: Y) i = .ok a := by
  subst hi
  have h0 : ¬ ((X.length : Int) < 0) := by omega
  have h1 : (X ++ a :: Y)[X.length]? = some a := by
    rw [List.getElem?_append_right (le_refl _)]; simp
  unfold readAt
  simp only [h0, if_false, Int.toNat_ofNat, h1]

theorem writeAt_append_cons (X : List Int) (a : Int) (Y : List Int) (i b : Int)
    (hi : i = X.length) : writeAt (X ++ a :: Y) i b = .ok (X ++ b :: Y) := by
  subst hi
  have h0 : ¬ ((X.length : Int) < 0) := by omega
  unfold writeAt
  simp [h0]

end Cpp

namespace CakeThief

open Cpp

theorem totalWeight_cons (c : Cake) (sel : List Cake) :
    totalWeight (c :: sel) = c.weight + totalWeight sel := by
  simp [totalWeight]

theorem totalValue_cons (c : Cake) (sel : List Cake) :
    totalValue (c :: sel) = c.value + totalValue sel := by
  simp [totalValue]

theorem totalWeight_nonneg (sel : List Cake) (h : ∀ c ∈ sel, 0 ≤ c.weight) :
    0 ≤ totalWeight sel := by
  induction sel with
  | nil => simp [totalWeight]
  | cons d sel ih =>
    rw [totalWeight_cons]
    have h1 := h d (List.mem_cons_self _ _)
    have h2 := ih (fun c hc => h c (List.mem_cons_of_mem _ hc))
    omega

theorem totalWeight_erase (sel : List Cake) (c : Cake) (hc : c ∈ sel) :
    totalWeight sel = c.weight + totalWeight (sel.erase c) := by
  have hp := List.perm_cons_erase hc
  have := (hp.map Cake.weight).sum_eq
  simpa [totalWeight] using this

theorem totalValue_erase (sel : List Cake) (c : Cake) (hc : c ∈ sel) :
    totalValue sel = c.value + totalValue (sel.erase c) := by
  have hp := List.perm_cons_erase hc
  have := (hp.map Cake.value).sum_eq
  simpa [totalValue] using this

theorem weight_le_totalWeight (sel : List Cake) (c : Cake) (h : ∀ d ∈ sel, 0 ≤ d.weight)
    (hc : c ∈ sel) : c.weight ≤ totalWeight sel := by
  rw [totalWeight_erase sel c hc]
  have := totalWeight_nonneg (sel.erase c) (fun d hd => h d (List.mem_of_mem_erase hd))
  omega

/-- Adding a cake type that does not fit leaves the maximum unchanged. -/
theorem isMaxValue_cons_of_lt (S : List Cake) (c : Cake) (j x : Int)
    (hS : ∀ d ∈ S, 0 ≤ d.weight) (hc : 0 ≤ c.weight) (hj : j < c.weight)
    (h : IsMaxValue S j x) : IsMaxValue (c :: S) j x := by
  obtain ⟨⟨sel, ⟨hmem, hwt⟩, hval⟩, hub⟩ := h
  refine ⟨⟨sel, ⟨fun d hd => List.mem_cons_of_mem _ (hmem d hd), hwt⟩, hval⟩, ?_⟩
  rintro sel2 ⟨hmem2, hwt2⟩
  apply hub
  refine ⟨fun d hd => ?_, hwt2⟩
  rcases List.mem_cons.1 (hmem2 d hd) with hdc | hdS
  · exfalso
    subst hdc
    have hnn : ∀ e ∈ sel2, 0 ≤ e.weight := by
      intro e he
      rcases List.mem_cons.1 (hmem2 e he) with h1 | h1
      · rw [h1]; exact hc
      · exact hS e h1
    have := weight_le_totalWeight sel2 d hnn hd
    omega
  · exact hdS

/-- The recurrence of the unbounded knapsack: with cake `c` allowed, the best value at `j` is
the better of not using `c` and of using it once more on top of the best value at
`j - c.weight`. -/
theorem isMaxValue_cons_of_le (S : List Cake) (c : Cake) (j x y : Int)
    (hx : IsMaxValue S j x) (hy : IsMaxValue (c :: S) (j - c.weight) y) :
    IsMaxValue (c :: S) j (max x (y + c.value)) := by
  obtain ⟨⟨selx, ⟨hmemx, hwtx⟩, hvalx⟩, hubx⟩ := hx
  obtain ⟨⟨sely, ⟨hmemy, hwty⟩, hvaly⟩, huby⟩ := hy
  constructor
  · rcases le_total x (y + c.value) with hle | hle
    · refine ⟨c :: sely, ⟨?_, ?_⟩, ?_⟩
      · intro d hd
        rcases List.mem_cons.1 hd with h1 | h1
        · rw [h1]; exact List.mem_cons_self _ _
        · exact hmemy d h1
      · rw [totalWeight_cons]; omega
      · rw [totalValue_cons, max_eq_right hle]; omega
    · refine ⟨selx, ⟨fun d hd => List.mem_cons_of_mem _ (hmemx d hd), hwtx⟩, ?_⟩
      rw [max_eq_left hle]; exact hvalx
  · rintro sel ⟨hmem, hwt⟩
    by_cases hc : c ∈ sel
    · have hw := totalWeight_erase sel c hc
      have hv := totalValue_erase sel c hc
      have := huby (sel.erase c)
        ⟨fun d hd => hmem d (List.mem_of_mem_erase hd), by omega⟩
      have := le_max_right x (y + c.value)
      omega
    · have := hubx sel ⟨fun d hd => by
        rcases List.mem_cons.1 (hmem d hd) with h1 | h1
        · exact absurd (h1 ▸ hd) hc
        · exact h1, hwt⟩
      have := le_max_left x (y + c.value)
      omega

theorem isMaxValue_congr (S T : List Cake) (j x : Int) (hST : ∀ d, d ∈ S ↔ d ∈ T)
    (h : IsMaxValue S j x) : IsMaxValue T j x := by
  obtain ⟨⟨sel, ⟨hmem, hwt⟩, hval⟩, hub⟩ := h
  refine ⟨⟨sel, ⟨fun d hd => (hST d).1 (hmem d hd), hwt⟩, hval⟩, ?_⟩
  rintro sel2 ⟨hmem2, hwt2⟩
  exact hub sel2 ⟨fun d hd => (hST d).2 (hmem2 d hd), hwt2⟩

theorem isMaxValue_nil (j : Int) (hj : 0 ≤ j) : IsMaxValue [] j 0 := by
  refine ⟨⟨[], ⟨by simp, by simpa [totalWeight] using hj⟩, by simp [totalValue]⟩, ?_⟩
  rintro sel ⟨hmem, -⟩
  cases sel with
  | nil => simp [totalValue]
  | cons d sel => exact absurd (hmem d (List.mem_cons_self _ _)) (List.not_mem_nil _)

theorem mid_zero (capacity : Int) (S : List Cake) (c : Cake) (a : List Int)
    (hS : ∀ d ∈ S, 0 ≤ d.weight) (hc : 0 ≤ c.weight) (h : Table capacity S a) :
    Mid capacity S c 0 a := by
  intro j hj0 hjc
  obtain ⟨x, hx, hmax⟩ := h j hj0 hjc
  refine ⟨x, hx, ?_⟩
  split
  · exact isMaxValue_cons_of_lt S c j x hS hc (by omega) hmax
  · exact hmax

theorem innerLoop_spec (capacity : Int) (S : List Cake) (c : Cake) (hc : 0 < c.weight) :
    ∀ (trips : Nat) (k : Int) (a : List Int), 0 ≤ k →
      trips = (capacity - c.weight - k + 1).toNat → Mid capacity S c k a →
      ∃ a', innerLoop capacity c trips k a = .ok a' ∧ Table capacity (c :: S) a' := by
  intro trips
  induction trips with
  | zero =>
    intro k a _ htrips hmid
    refine ⟨a, rfl, ?_⟩
    intro j hj0 hjc
    obtain ⟨x, hx, hmax⟩ := hmid j hj0 hjc
    have hlt : j < k + c.weight := by omega
    rw [if_pos hlt] at hmax
    exact ⟨x, hx, hmax⟩
  | succ trips ih =>
    intro k a hk htrips hmid
    have hguard : k + c.weight ≤ capacity := by omega
    obtain ⟨cur, hcur, hcurmax⟩ := hmid (k + c.weight) (by omega) hguard
    rw [if_neg (lt_irrefl _)] at hcurmax
    obtain ⟨prev, hprev, hprevmax⟩ := hmid k hk (by omega)
    rw [if_pos (by omega)] at hprevmax
    obtain ⟨a1, ha1⟩ := writeAt_ok a (k + c.weight) (max cur (prev + c.value)) cur hcur
    have hrelax : relax c a k = .ok a1 := by
      simp [relax, hcur, hprev, ha1, bind, Except.bind]
    have hmid1 : Mid capacity S c (k + 1) a1 := by
      intro j hj0 hjc
      rw [readAt_writeAt a a1 _ _ j ha1 hj0]
      by_cases hj : j = k + c.weight
      · subst hj
        refine ⟨_, if_pos rfl, ?_⟩
        rw [if_pos (by omega)]
        apply isMaxValue_cons_of_le S c _ cur prev hcurmax
        have : k + c.weight - c.weight = k := by omega
        rw [this]; exact hprevmax
      · obtain ⟨x, hx, hmax⟩ := hmid j hj0 hjc
        refine ⟨x, by rw [if_neg hj]; exact hx, ?_⟩
        by_cases hlt : j < k + c.weight
        · rw [if_pos hlt] at hmax
          rw [if_pos (by omega)]; exact hmax
        · rw [if_neg hlt] at hmax
          rw [if_neg (by omega)]; exact hmax
    obtain ⟨a', ha', htab⟩ := ih (k + 1) a1 (by omega) (by omega) hmid1
    refine ⟨a', ?_, htab⟩
    simp [innerLoop, hguard, hrelax, ha', bind, Except.bind]

theorem foldlM_spec (capacity : Int) :
    ∀ (rest S : List Cake) (a : List Int), (∀ d ∈ S, 0 < d.weight) →
      (∀ d ∈ rest, 0 < d.weight) → Table capacity S a →
      ∃ a', rest.foldlM
          (fun max_value c => innerLoop capacity c (tripCount capacity c) 0 max_value) a = .ok a' ∧
        ∀ T : List Cake, (∀ d, d ∈ T ↔ d ∈ S ∨ d ∈ rest) → Table capacity T a' := by
  intro rest
  induction rest with
  | nil =>
    intro S a _ _ htab
    refine ⟨a, rfl, ?_⟩
    intro T hT j hj0 hjc
    obtain ⟨x, hx, hmax⟩ := htab j hj0 hjc
    exact ⟨x, hx, isMaxValue_congr S T j x (fun d => by simp [hT d]) hmax⟩
  | cons c rest ih =>
    intro S a hS hrest htab
    have hc : 0 < c.weight := hrest c (List.mem_cons_self _ _)
    have hmid := mid_zero capacity S c a (fun d hd => le_of_lt (hS d hd)) (le_of_lt hc) htab
    obtain ⟨a1, ha1, htab1⟩ := innerLoop_spec capacity S c hc (tripCount capacity c) 0 a
      (le_refl _) (by simp [tripCount]) hmid
    have hS1 : ∀ d ∈ c :: S, 0 < d.weight := by
      intro d hd
      rcases List.mem_cons.1 hd with h1 | h1
      · rw [h1]; exact hc
      · exact hS d h1
    obtain ⟨a', ha', htab'⟩ := ih (c :: S) a1 hS1
      (fun d hd => hrest d (List.mem_cons_of_mem _ hd)) htab1
    refine ⟨a', ?_, ?_⟩
    · simp [List.foldlM, ha1, ha', bind, Except.bind]
    · intro T hT
      apply htab' T
      intro d
      rw [hT d]
      simp only [List.mem_cons]
      tauto

theorem newArray_table (capacity : Int) (hcap : 0 ≤ capacity) :
    ∃ a, newArray (capacity + 1) = .ok a ∧ Table capacity [] a := by
  refine ⟨List.replicate (capacity + 1).toNat 0, ?_, ?_⟩
  · simp [newArray]; omega
  · intro j hj0 hjc
    refine ⟨0, ?_, isMaxValue_nil j hj0⟩
    rw [readAt_eq_ok_iff]
    refine ⟨hj0, ?_⟩
    rw [List.getElem?_eq_some_iff]
    refine ⟨by simp; omega, by simp⟩

/-- The dynamic programme returns the maximum value: the general statement from which the
claims about `maxValueIterative` follow. -/
theorem maxValueIterative_isMaxValue (capacity : Int) (cakes : List Cake) (hcap : 0 ≤ capacity)
    (hw : ∀ c ∈ cakes, 0 < c.weight) :
    ∃ r, maxValueIterative capacity cakes = .ok r ∧ IsMaxValue cakes capacity r := by
  obtain ⟨a0, ha0, htab0⟩ := newArray_table capacity hcap
  obtain ⟨a', ha', htab'⟩ := foldlM_spec capacity cakes [] a0 (by simp) hw htab0
  obtain ⟨r, hr, hmax⟩ := htab' cakes (by simp) capacity hcap (le_refl _)
  refine ⟨r, ?_, hmax⟩
  simp [maxValueIterative, ha0, ha', hr, bind, Except.bind]

theorem buildQueue_canonical :
    buildQueue canonicalCakes = [⟨2, 2⟩, ⟨3, 3⟩, ⟨5, 5⟩, ⟨6, 6⟩] := by
  decide!

theorem sortCakes_canonical :
    sortCakes canonicalCakes = [⟨6, 6⟩, ⟨5, 5⟩, ⟨3, 3⟩, ⟨2, 2⟩] := by
  decide!

theorem value_eq_weight_canonical (sel : List Cake) (h : ∀ c ∈ sel, c ∈ canonicalCakes) :
    totalValue sel = totalWeight sel := by
  induction sel with
  | nil => rfl
  | cons d sel ih =>
    rw [totalValue_cons, totalWeight_cons, ih (fun c hc => h c (List.mem_cons_of_mem _ hc))]
    have hd := h d (List.mem_cons_self _ _)
    simp only [canonicalCakes, List.mem_cons, List.mem_singleton, List.not_mem_nil,
      or_false] at hd
    rcases hd with rfl | rfl | rfl | rfl <;> rfl

theorem maxValueIterative_canonical (k : Nat) :
    maxValueIterative (30 * (k : Int)) canonicalCakes = .ok (30 * (k : Int)) := by
  obtain ⟨r, hr, ⟨sel, ⟨hmem, hwt⟩, hval⟩, hub⟩ :=
    maxValueIterative_isMaxValue (30 * (k : Int)) canonicalCakes (by omega) (by decide)
  have hle : r ≤ 30 * (k : Int) := by
    rw [← hval, value_eq_weight_canonical sel hmem]; exact hwt
  have hge : 30 * (k : Int) ≤ r := by
    have hfeas : Feasible canonicalCakes (30 * (k : Int)) (List.replicate (15 * k) ⟨2, 2⟩) := by
      refine ⟨fun c hc => ?_, ?_⟩
      · rw [List.eq_of_mem_replicate hc]; decide
      · simp [totalWeight]; omega
    have := hub _ hfeas
    simp [totalValue] at this
    omega
  rw [hr, le_antisymm hle hge]

theorem maxValueGreedyPQueue_canonical (k : Nat) :
    maxValueGreedyPQueue (30 * (k : Int)) canonicalCakes = .ok (30 * (k : Int)) := by
  have hmod : (30 * (k : Int)).tmod 2 = 0 := by
    rw [Int.tmod_eq_emod (by omega) (by omega)]; omega
  have hdiv : (30 * (k : Int)).tdiv 2 * 2 = 30 * (k : Int) := by
    rw [Int.tdiv_eq_ediv (by omega) (by omega)]; omega
  have hr : ¬ ((-1 : ℚ) = getRatio ⟨2, 2⟩) := by norm_num [getRatio]
  unfold maxValueGreedyPQueue
  rw [buildQueue_canonical]
  by_cases hk : 30 * (k : Int) > 0
  · simp [pqLoop, pqPass, hk, hmod, hdiv, hr, bind, Except.bind]
  · have h0 : 30 * (k : Int) = 0 := by omega
    simp [pqLoop, pqPass, h0, bind, Except.bind]

theorem maxValueGreedySort_canonical (k : Nat) :
    maxValueGreedySort (30 * (k : Int)) canonicalCakes = .ok (30 * (k : Int)) := by
  have hmod : (30 * (k : Int)).tmod 6 = 0 := by
    rw [Int.tmod_eq_emod (by omega) (by omega)]; omega
  have hdiv : (30 * (k : Int)).tdiv 6 * 6 = 30 * (k : Int) := by
    rw [Int.tdiv_eq_ediv (by omega) (by omega)]; omega
  have hr : ¬ ((-1 : ℚ) = getRatio ⟨6, 6⟩) := by norm_num [getRatio]
  unfold maxValueGreedySort
  rw [sortCakes_canonical]
  by_cases hk : 30 * (k : Int) > 0
  · simp [sortLoop, sortPass, hk, hmod, hdiv, hr, bind, Except.bind]
  · have h0 : 30 * (k : Int) = 0 := by omega
    simp [sortLoop, sortPass, h0, bind, Except.bind]

theorem mem_push (x c : Cake) (q : List Cake) : x ∈ push c q ↔ x = c ∨ x ∈ q := by
  induction q with
  | nil => simp [push]
  | cons d q ih =>
    unfold push
    split
    · simp only [List.mem_cons, ih]; tauto
    · simp only [List.mem_cons]

theorem mem_sortInsert (x c : Cake) (l : List Cake) : x ∈ sortInsert c l ↔ x = c ∨ x ∈ l := by
  induction l with
  | nil => simp [sortInsert]
  | cons d l ih =>
    unfold sortInsert
    split
    · simp only [List.mem_cons]
    · simp only [List.mem_cons, ih]; tauto

theorem mem_sortCakes (x : Cake) (cakes : List Cake) : x ∈ sortCakes cakes ↔ x ∈ cakes := by
  unfold sortCakes
  induction cakes with
  | nil => simp
  | cons c cakes ih => rw [List.foldr_cons, mem_sortInsert, ih, List.mem_cons]

theorem sortPass_ok (cakes : List Cake) (i : Nat) (hi : i < cakes.length)
    (h : ∀ c ∈ cakes, c.weight ≠ 0) :
    ∀ (left : Nat) (rep : Bool) (temp_value temp_capacity : Int) (prev_ratio : ℚ),
      ∃ r, sortPass cakes i left rep temp_value temp_capacity prev_ratio = .ok r := by
  intro left
  induction left with
  | zero => intro rep tv tc pr; exact ⟨_, rfl⟩
  | succ left ih =>
    intro rep tv tc pr
    have hget : cakes[i]? = some cakes[i] := List.getElem?_eq_getElem hi
    have hc : cakes[i].weight ≠ 0 := h _ (List.getElem_mem hi)
    unfold sortPass
    split
    · rw [hget]
      simp only [hc, if_false]
      exact ih _ _ _ _
    · exact ⟨_, rfl⟩

theorem sortLoop_ok (capacity : Int) (cakes : List Cake) (h : ∀ c ∈ cakes, c.weight ≠ 0) :
    ∀ (left i : Nat) (max_value : Int), i + left ≤ cakes.length →
      ∃ r, sortLoop capacity cakes left i max_value = .ok r := by
  intro left
  induction left with
  | zero => intro i mv _; exact ⟨_, rfl⟩
  | succ left ih =>
    intro i mv hi
    obtain ⟨⟨rep, tv⟩, hpass⟩ :=
      sortPass_ok cakes i (by omega) h (cakes.length - i) false 0 capacity (-1)
    unfold sortLoop
    rw [hpass]
    simp only [bind, Except.bind]
    cases rep with
    | false => exact ⟨_, rfl⟩
    | true => exact ih _ _ (by omega)

theorem maxValueGreedySort_ok (capacity : Int) (cakes : List Cake)
    (h : ∀ c ∈ cakes, c.weight ≠ 0) : ∃ r, maxValueGreedySort capacity cakes = .ok r :=
  sortLoop_ok capacity (sortCakes cakes) (fun c hc => h c ((mem_sortCakes c cakes).1 hc))
    (sortCakes cakes).length 0 0 (by omega)

/-- Claim C1: for capacity ≥ 0 and cakes with positive weights and non-negative values,
`maxValueIterative` returns a value (no fault), and that value is the maximum total value over
all selections of the cake types, each usable any number of times, whose total weight is at
most the capacity: some such selection attains it and none exceeds it. -/
theorem maxValueIterative_optimal (capacity : Int) (cakes : List Cake) (hcap : 0 ≤ capacity)
    (hw : ∀ c ∈ cakes, 0 < c.weight) (_hv : ∀ c ∈ cakes, 0 ≤ c.value) :
    ∃ r, maxValueIterative capacity cakes = .ok r ∧
      (∃ sel, Feasible cakes capacity sel ∧ totalValue sel = r) ∧
      ∀ sel, Feasible cakes capacity sel → totalValue sel ≤ r :=
  maxValueIterative_isMaxValue capacity cakes hcap hw

/-- Claim C1 at capacity 10 with the cake types of `main`. -/
theorem maxValueIterative_optimal_witness :
    (0 : Int) ≤ 10 ∧ (∀ c ∈ canonicalCakes, 0 < c.weight) ∧
      (∀ c ∈ canonicalCakes, 0 ≤ c.value) ∧
      ∃ r, maxValueIterative 10 canonicalCakes = .ok r ∧
        (∃ sel, Feasible canonicalCakes 10 sel ∧ totalValue sel = r) ∧
        ∀ sel, Feasible canonicalCakes 10 sel → totalValue sel ≤ r :=
  ⟨by decide, by decide, by decide,
    maxValueIterative_optimal 10 canonicalCakes (by decide) (by decide) (by decide)⟩

/-- Claim C3, evaluated where it fails: for capacity 10 and the cakes (3,3), (7,14), with
positive weights and distinct ratios, `maxValueGreedyPQueue` returns 17 (one cake of weight 7,
then one of weight 3) while `maxValueGreedySort` returns 14, so the two greedy functions do
not return the same value. -/
theorem greedy_variants_differ :
    maxValueGreedyPQueue 10 [⟨3, 3⟩, ⟨7, 14⟩] = .ok 17 ∧
      maxValueGreedySort 10 [⟨3, 3⟩, ⟨7, 14⟩] = .ok 14 := by
  decide!

/-- Claim C9: for the cake types (2,2), (3,3), (5,5), (6,6) and every capacity `30 * k` with
`k ≥ 0`, the three strategies return the same value, the capacity itself. -/
theorem canonical_strategies_agree (k : Nat) :
    maxValueIterative (30 * (k : Int)) canonicalCakes = .ok (30 * (k : Int)) ∧
      maxValueGreedyPQueue (30 * (k : Int)) canonicalCakes = .ok (30 * (k : Int)) ∧
      maxValueGreedySort (30 * (k : Int)) canonicalCakes = .ok (30 * (k : Int)) :=
  ⟨maxValueIterative_canonical k, maxValueGreedyPQueue_canonical k,
    maxValueGreedySort_canonical k⟩

/-- Claim C10: for capacity 10 and the cakes (2,2), (3,3), (5,5), (6,6), `maxValueIterative`
returns 10 and so do `maxValueGreedyPQueue` and `maxValueGreedySort`. -/
theorem capacity_ten_scenario :
    maxValueIterative 10 [⟨2, 2⟩, ⟨3, 3⟩, ⟨5, 5⟩, ⟨6, 6⟩] = .ok 10 ∧
      maxValueGreedyPQueue 10 [⟨2, 2⟩, ⟨3, 3⟩, ⟨5, 5⟩, ⟨6, 6⟩] = .ok 10 ∧
      maxValueGreedySort 10 [⟨2, 2⟩, ⟨3, 3⟩, ⟨5, 5⟩, ⟨6, 6⟩] = .ok 10 := by
  decide!

theorem innerLoop_capacity_zero (c : Cake)
    (hc : 0 < c.weight ∨ (c.weight = 0 ∧ c.value ≤ 0)) :
    innerLoop 0 c (tripCount 0 c) 0 [0] = .ok [0] := by
  rcases hc with hpos | ⟨hw, hv⟩
  · have ht : tripCount 0 c = 0 := by unfold tripCount; omega
    rw [ht]; rfl
  · have ht : tripCount 0 c = 1 := by unfold tripCount; omega
    have hmax : max (0 : Int) c.value = 0 := max_eq_left hv
    rw [ht]
    simp [innerLoop, relax, readAt, writeAt, hw, hmax, bind, Except.bind]

theorem foldlM_capacity_zero :
    ∀ cakes : List Cake, (∀ c ∈ cakes, 0 < c.weight ∨ (c.weight = 0 ∧ c.value ≤ 0)) →
      cakes.foldlM (fun max_value c => innerLoop 0 c (tripCount 0 c) 0 max_value) [0]
        = .ok [0] := by
  intro cakes
  induction cakes with
  | nil => intro _; rfl
  | cons c cakes ih =>
    intro h
    rw [List.foldlM_cons, innerLoop_capacity_zero c (h c (List.mem_cons_self _ _))]
    exact ih (fun d hd => h d (List.mem_cons_of_mem _ hd))

/-- Claim C11 fails: at capacity 0 a cake of weight 0 and value 5 is taken once by the single
iteration `k = 0` of its pass, and `maxValueIterative` returns 5; a cake of weight -1 makes
that iteration index `max_value[-1]`. -/
theorem maxValueIterative_zero_capacity_nonzero :
    maxValueIterative 0 [⟨0, 5⟩] = .ok 5 ∧
      maxValueIterative 0 [⟨-1, 1⟩] = .error .outOfBounds := by
  decide

/-- Claim C11, amended: for every list of cakes in which each cake has a positive weight, or
weight 0 and a value that is not positive (as the cake `Cake()` of the default constructor,
weight 0 and value 0), `maxValueIterative(0, cakes)` returns 0. -/
theorem maxValueIterative_zero_capacity (cakes : List Cake)
    (h : ∀ c ∈ cakes, 0 < c.weight ∨ (c.weight = 0 ∧ c.value ≤ 0)) :
    maxValueIterative 0 cakes = .ok 0 := by
  have hnew : newArray (0 + 1) = .ok [0] := rfl
  unfold maxValueIterative
  rw [hnew]
  simp only [bind, Except.bind]
  rw [foldlM_capacity_zero cakes h]
  rfl

/-- Claim C11, amended, on the default cake together with the cake types of `main`. -/
theorem maxValueIterative_zero_capacity_witness :
    (∀ c ∈ (⟨0, 0⟩ :: canonicalCakes), 0 < c.weight ∨ (c.weight = 0 ∧ c.value ≤ 0)) ∧
      maxValueIterative 0 (⟨0, 0⟩ :: canonicalCakes) = .ok 0 :=
  ⟨by decide, maxValueIterative_zero_capacity (⟨0, 0⟩ :: canonicalCakes) (by decide)⟩

/-- Claim C13, evaluated where it fails: `sort` with the comparator of `maxValueGreedySort`
leaves the cakes (3,3), (7,14) with the ratio 1 before the ratio 2, so position 0 holds the
worst ratio, and it puts the cakes of `main`, all of ratio 1, in the order of weights
6, 5, 3, 2, the larger weight first. -/
theorem sortCakes_worst_first :
    sortCakes [⟨3, 3⟩, ⟨7, 14⟩] = [⟨3, 3⟩, ⟨7, 14⟩] ∧
      sortCakes [⟨7, 14⟩, ⟨3, 3⟩] = [⟨3, 3⟩, ⟨7, 14⟩] ∧
      sortCakes canonicalCakes = [⟨6, 6⟩, ⟨5, 5⟩, ⟨3, 3⟩, ⟨2, 2⟩] := by
  decide!

theorem cakeComparator_iff (A B : Cake) :
    cakeComparator A B = true ↔
      getRatio A < getRatio B ∨ (getRatio A = getRatio B ∧ B.weight < A.weight) := by
  unfold cakeComparator
  rcases lt_trichotomy (getRatio A) (getRatio B) with h | h | h
  · have h1 : ¬ getRatio A > getRatio B := not_lt.2 (le_of_lt h)
    have h2 : ¬ getRatio A = getRatio B := ne_of_lt h
    simp [h1, h2, h]
  · simp [h]
  · have h2 : ¬ getRatio A = getRatio B := ne_of_gt h
    have h3 : ¬ getRatio A < getRatio B := not_lt.2 (le_of_lt h)
    simp [h, h2, h3]

theorem cakeComparator_false_iff (A B : Cake) :
    cakeComparator A B = false ↔
      getRatio B ≤ getRatio A ∧ (getRatio A = getRatio B → A.weight ≤ B.weight) := by
  rw [← Bool.not_eq_true, cakeComparator_iff]
  constructor
  · intro h
    rw [not_or] at h
    refine ⟨not_lt.1 h.1, fun heq => ?_⟩
    by_contra hlt
    exact h.2 ⟨heq, by omega⟩
  · rintro ⟨h1, h2⟩ h
    rcases h with h | ⟨heq, hlt⟩
    · exact absurd h (not_lt.2 h1)
    · have := h2 heq; omega

theorem cakeComparator_irrefl (A : Cake) : cakeComparator A A = false := by
  rw [cakeComparator_false_iff]
  exact ⟨le_refl _, fun _ => le_refl _⟩

theorem cakeComparator_asymm (A B : Cake) (h : cakeComparator A B = true) :
    cakeComparator B A = false := by
  rw [cakeComparator_iff] at h
  rw [cakeComparator_false_iff]
  rcases h with h | ⟨heq, hlt⟩
  · exact ⟨le_of_lt h, fun heq => absurd heq.symm (ne_of_lt h)⟩
  · exact ⟨le_of_eq heq, fun _ => by omega⟩

theorem cakeComparator_false_trans (A B C : Cake) (h1 : cakeComparator A B = false)
    (h2 : cakeComparator B C = false) : cakeComparator A C = false := by
  rw [cakeComparator_false_iff] at h1 h2 ⊢
  obtain ⟨hab, hab'⟩ := h1
  obtain ⟨hbc, hbc'⟩ := h2
  refine ⟨le_trans hbc hab, fun heq => ?_⟩
  have e1 : getRatio A = getRatio B := le_antisymm (by rw [heq]; exact hbc) hab
  have e2 : getRatio B = getRatio C := by rw [← e1]; exact heq
  exact le_trans (hab' e1) (hbc' e2)

theorem push_pairwise (c : Cake) :
    ∀ q : List Cake, q.Pairwise (fun a b => cakeComparator a b = false) →
      (push c q).Pairwise (fun a b => cakeComparator a b = false) := by
  intro q
  induction q with
  | nil => intro _; simp [push]
  | cons d q ih =>
    intro h
    rw [List.pairwise_cons] at h
    obtain ⟨hd, hq⟩ := h
    unfold push
    split
    · rename_i hcd
      rw [List.pairwise_cons]
      refine ⟨fun x hx => ?_, ih hq⟩
      rcases (mem_push x c q).1 hx with h1 | h1
      · rw [h1]; exact cakeComparator_asymm c d hcd
      · exact hd x h1
    · rename_i hcd
      have hcd' : cakeComparator c d = false := by simpa using hcd
      rw [List.pairwise_cons]
      refine ⟨fun x hx => ?_, List.pairwise_cons.2 ⟨hd, hq⟩⟩
      rcases List.mem_cons.1 hx with h1 | h1
      · rw [h1]; exact hcd'
      · exact cakeComparator_false_trans c d x hcd' (hd x h1)

theorem push_perm (c : Cake) : ∀ q : List Cake, (push c q).Perm (c :: q) := by
  intro q
  induction q with
  | nil => simp [push]
  | cons d q ih =>
    unfold push
    split
    · exact ((ih.cons d).trans (List.Perm.swap c d q))
    · exact List.Perm.refl _

theorem foldl_push_spec :
    ∀ cakes queue : List Cake, queue.Pairwise (fun a b => cakeComparator a b = false) →
      (cakes.foldl (fun queue c => push c queue) queue).Pairwise
          (fun a b => cakeComparator a b = false) ∧
        (cakes.foldl (fun queue c => push c queue) queue).Perm (queue ++ cakes) := by
  intro cakes
  induction cakes with
  | nil => intro queue h; simpa using h
  | cons c cakes ih =>
    intro queue h
    obtain ⟨h1, h2⟩ := ih (push c queue) (push_pairwise c queue h)
    refine ⟨h1, h2.trans ?_⟩
    have h3 : (push c queue ++ cakes).Perm ((c :: queue) ++ cakes) :=
      (push_perm c queue).append_right cakes
    refine h3.trans ?_
    have h4 : (queue ++ c :: cakes).Perm (c :: (queue ++ cakes)) := List.perm_middle
    simpa using h4.symm

/-- The queue of `maxValueGreedyPQueue` holds the cakes given, no element of it being below a
later one under the comparator: `top` and `pop` deliver a greatest element first. -/
theorem buildQueue_spec (cakes : List Cake) :
    (buildQueue cakes).Pairwise (fun a b => cakeComparator a b = false) ∧
      (buildQueue cakes).Perm cakes := by
  have := foldl_push_spec cakes [] List.Pairwise.nil
  simpa [buildQueue] using this

theorem sortInsert_pairwise (c : Cake) :
    ∀ l : List Cake, l.Pairwise (fun a b => cakeComparator b a = false) →
      (sortInsert c l).Pairwise (fun a b => cakeComparator b a = false) := by
  intro l
  induction l with
  | nil => intro _; simp [sortInsert]
  | cons d l ih =>
    intro h
    rw [List.pairwise_cons] at h
    obtain ⟨hd, hl⟩ := h
    unfold sortInsert
    split
    · rename_i hcd
      have hdc : cakeComparator d c = false := cakeComparator_asymm c d hcd
      rw [List.pairwise_cons]
      refine ⟨fun x hx => ?_, List.pairwise_cons.2 ⟨hd, hl⟩⟩
      rcases List.mem_cons.1 hx with h1 | h1
      · rw [h1]; exact hdc
      · exact cakeComparator_false_trans x d c (hd x h1) hdc
    · rename_i hcd
      have hcd' : cakeComparator c d = false := by simpa using hcd
      rw [List.pairwise_cons]
      refine ⟨fun x hx => ?_, ih hl⟩
      rcases (mem_sortInsert x c l).1 hx with h1 | h1
      · rw [h1]; exact hcd'
      · exact hd x h1

/-- The sequence `sort` leaves in `maxValueGreedySort` is ascending under the comparator: no
element is below an earlier one, so the ratios do not decrease along it. -/
theorem sortCakes_ascending (cakes : List Cake) :
    (sortCakes cakes).Pairwise (fun a b => cakeComparator b a = false) := by
  unfold sortCakes
  induction cakes with
  | nil => exact List.Pairwise.nil
  | cons c cakes ih => rw [List.foldr_cons]; exact sortInsert_pairwise c _ ih

theorem singlePass_zero : ∀ q : List Cake, singlePass 0 q = 0 := by
  intro q
  induction q with
  | nil => rfl
  | cons c q ih => simp [singlePass, ih]

theorem singlePass_nonneg :
    ∀ (q : List Cake) (r : Int), 0 ≤ r → (∀ c ∈ q, 0 < c.weight) → (∀ c ∈ q, 0 ≤ c.value) →
      0 ≤ singlePass r q := by
  intro q
  induction q with
  | nil => intro r _ _ _; exact le_refl _
  | cons c q ih =>
    intro r hr hw hv
    have hcw := hw c (List.mem_cons_self _ _)
    have hcv := hv c (List.mem_cons_self _ _)
    have h1 : 0 ≤ r / c.weight := Int.ediv_nonneg hr (le_of_lt hcw)
    have h2 : 0 ≤ r % c.weight := Int.emod_nonneg r (ne_of_gt hcw)
    have h3 := ih (r % c.weight) h2 (fun d hd => hw d (List.mem_cons_of_mem _ hd))
      (fun d hd => hv d (List.mem_cons_of_mem _ hd))
    have h4 : 0 ≤ r / c.weight * c.value := mul_nonneg h1 hcv
    unfold singlePass
    omega

end CakeThief

namespace CakeThief.Machine

open Cpp

theorem halvings_spec :
    ∀ steps n : Nat, n ≤ steps → n ≠ 0 →
      2 ^ halvings steps n ≤ n ∧ n < 2 ^ (halvings steps n + 1) := by
  intro steps
  induction steps with
  | zero => intro n h1 h2; omega
  | succ steps ih =>
    intro n h1 h2
    unfold halvings
    by_cases hn : n < 2
    · rw [if_pos hn]
      have : n = 1 := by omega
      subst this
      simp
    · rw [if_neg hn]
      obtain ⟨ih1, ih2⟩ := ih (n / 2) (by omega) (by omega)
      have e1 : 2 ^ (halvings steps (n / 2) + 1) = 2 * 2 ^ halvings steps (n / 2) := by
        rw [pow_succ]; ring
      have e2 : 2 ^ (halvings steps (n / 2) + 1 + 1)
          = 2 * 2 ^ (halvings steps (n / 2) + 1) := by
        rw [pow_succ]; ring
      constructor
      · rw [e1]; omega
      · rw [e2]; omega

/-- The function `log2` is the binary logarithm rounded down. -/
theorem log2_spec (n : Nat) (hn : n ≠ 0) : 2 ^ log2 n ≤ n ∧ n < 2 ^ (log2 n + 1) :=
  halvings_spec n n (le_refl _) hn

theorem pow2_eq_zpow (e : Int) : pow2 e = (2 : ℚ) ^ e := by
  unfold pow2
  by_cases h : 0 ≤ e
  · rw [if_pos h]
    obtain ⟨n, rfl⟩ := Int.eq_ofNat_of_zero_le h
    simp
  · rw [if_neg h]
    obtain ⟨n, hn⟩ : ∃ n : Nat, e = -(n : Int) := ⟨(-e).toNat, by omega⟩
    subst hn
    simp

theorem pow2_pos (e : Int) : 0 < pow2 e := by
  rw [pow2_eq_zpow]; positivity

theorem pow2_add (a b : Int) : pow2 (a + b) = pow2 a * pow2 b := by
  simp only [pow2_eq_zpow]
  exact zpow_add₀ (by norm_num) a b

theorem pow2_natCast (n : Nat) : pow2 (n : Int) = (2 : ℚ) ^ n := by
  rw [pow2_eq_zpow]; simp

theorem pow2_sub_natCast (a b : Nat) : pow2 ((a : Int) - (b : Int)) = (2 : ℚ) ^ a / (2 : ℚ) ^ b := by
  rw [pow2_eq_zpow, zpow_sub₀ (by norm_num)]
  simp

theorem pow2_succ (e : Int) : pow2 (e + 1) = 2 * pow2 e := by
  rw [pow2_add, mul_comm]
  congr 1

theorem ratio_bounds (P D A B : ℚ) (hA : 0 < A) (hB : 0 < B) (hD : 0 < D) (P1 : A ≤ P)
    (P2 : P < 2 * A) (Q1 : B ≤ D) (Q2 : D < 2 * B) :
    P / D < 2 * (A / B) ∧ A / B < 2 * (P / D) := by
  have hP : 0 < P := lt_of_lt_of_le hA P1
  constructor
  · have e : 2 * (A / B) = (2 * A) / B := by ring
    rw [e, div_lt_div_iff₀ hD hB]
    nlinarith
  · have e : 2 * (P / D) = (2 * P) / D := by ring
    rw [e, div_lt_div_iff₀ hB hD]
    nlinarith

/-- The function `exponent` gives the binary exponent of a positive rational. -/
theorem exponent_spec (x : ℚ) (hx : 0 < x) :
    pow2 (exponent x) ≤ x ∧ x < pow2 (exponent x + 1) := by
  have hnum : 0 < x.num := Rat.num_pos.2 hx
  have hden : 0 < x.den := x.den_pos
  obtain ⟨p1, p2⟩ := log2_spec x.num.toNat (by omega)
  obtain ⟨q1, q2⟩ := log2_spec x.den (by omega)
  have hpc : ((x.num.toNat : Nat) : ℚ) = (x.num : ℚ) := by
    have : ((x.num.toNat : Nat) : Int) = x.num := Int.toNat_of_nonneg (le_of_lt hnum)
    exact_mod_cast this
  have hx_eq : (x.num.toNat : ℚ) / (x.den : ℚ) = x := by
    rw [hpc]; exact Rat.num_div_den x
  have P1 : ((2 : ℚ) ^ log2 x.num.toNat) ≤ (x.num.toNat : ℚ) := by exact_mod_cast p1
  have P2 : (x.num.toNat : ℚ) < 2 * (2 : ℚ) ^ log2 x.num.toNat := by
    have : (x.num.toNat : ℚ) < (2 : ℚ) ^ (log2 x.num.toNat + 1) := by exact_mod_cast p2
    rw [pow_succ] at this; linarith
  have Q1 : ((2 : ℚ) ^ log2 x.den) ≤ (x.den : ℚ) := by exact_mod_cast q1
  have Q2 : (x.den : ℚ) < 2 * (2 : ℚ) ^ log2 x.den := by
    have : (x.den : ℚ) < (2 : ℚ) ^ (log2 x.den + 1) := by exact_mod_cast q2
    rw [pow_succ] at this; linarith
  have hdq : (0 : ℚ) < (x.den : ℚ) := by exact_mod_cast hden
  obtain ⟨hup, hlow⟩ := ratio_bounds _ _ _ _ (by positivity) (by positivity) hdq P1 P2 Q1 Q2
  rw [hx_eq, ← pow2_sub_natCast] at hup hlow
  unfold exponent
  simp only []
  by_cases h : pow2 ((log2 x.num.toNat : Int) - (log2 x.den : Int)) ≤ x
  · rw [if_pos h]
    refine ⟨h, ?_⟩
    rw [pow2_succ]; exact hup
  · rw [if_neg h]
    have e : (log2 x.num.toNat : Int) - (log2 x.den : Int) - 1 + 1
        = (log2 x.num.toNat : Int) - (log2 x.den : Int) := by ring
    have hs := pow2_succ ((log2 x.num.toNat : Int) - (log2 x.den : Int) - 1)
    rw [e] at hs
    refine ⟨?_, ?_⟩
    · rw [hs] at hlow; linarith
    · rw [e]; exact lt_of_not_le h

theorem roundHalfEven_bounds (n : ℚ) :
    n - 1 / 2 ≤ (roundHalfEven n : ℚ) ∧ (roundHalfEven n : ℚ) ≤ n + 1 / 2 := by
  have hfl : n.num / (n.den : Int) = ⌊n⌋ := Rat.floor_def.symm
  have h1 : ((⌊n⌋ : Int) : ℚ) ≤ n := Int.floor_le n
  have h2 : n < ((⌊n⌋ : Int) : ℚ) + 1 := Int.lt_floor_add_one n
  unfold roundHalfEven
  simp only [hfl]
  split_ifs with c1 c2 c3
  · constructor <;> linarith
  · push_cast; constructor <;> linarith
  · have : n - (⌊n⌋ : ℚ) = 1 / 2 := le_antisymm (not_lt.1 c2) (not_lt.1 c1)
    constructor <;> linarith
  · have : n - (⌊n⌋ : ℚ) = 1 / 2 := le_antisymm (not_lt.1 c2) (not_lt.1 c1)
    push_cast; constructor <;> linarith

theorem roundToFloat_pos (x : ℚ) (hx : 0 < x) : 0 < roundToFloat x := by
  have habs : |x| = x := abs_of_pos hx
  obtain ⟨e1, -⟩ := exponent_spec x hx
  have hq : 0 < pow2 (exponent x - 23) := pow2_pos _
  have hsplit : pow2 (exponent x) = pow2 (exponent x - 23) * pow2 23 := by
    rw [← pow2_add]; congr 1; ring
  have h23 : pow2 23 = 8388608 := by
    rw [show (23 : Int) = ((23 : Nat) : Int) from rfl, pow2_natCast]; norm_num
  have hbig : (8388608 : ℚ) ≤ x / pow2 (exponent x - 23) := by
    rw [le_div_iff₀ hq]
    rw [hsplit, h23] at e1
    linarith
  have hr := (roundHalfEven_bounds (x / pow2 (exponent x - 23))).1
  have hrpos : (0 : ℚ) < (roundHalfEven (x / pow2 (exponent x - 23)) : ℚ) := by linarith
  unfold roundToFloat
  rw [if_neg (ne_of_gt hx), habs]
  simp only [hx, if_true]
  exact mul_pos hrpos hq

theorem roundToFloat_neg (x : ℚ) (hx : x < 0) : roundToFloat x < 0 := by
  have hpos := roundToFloat_pos (-x) (by linarith)
  have habs : |x| = -x := abs_of_neg hx
  have habs' : |(-x)| = -x := abs_of_pos (by linarith)
  unfold roundToFloat at hpos ⊢
  rw [if_neg (ne_of_lt hx)]
  rw [if_neg (by intro h; linarith), habs'] at hpos
  simp only [show (0 : ℚ) < -x by linarith, if_true] at hpos
  rw [habs]
  simp only [show ¬ (0 : ℚ) < x by linarith, if_false]
  linarith

theorem roundToFloat_zero : roundToFloat 0 = 0 := by
  unfold roundToFloat; simp

theorem roundToFloat_nonneg (x : ℚ) (hx : 0 ≤ x) : 0 ≤ roundToFloat x := by
  rcases eq_or_lt_of_le hx with h | h
  · rw [← h, roundToFloat_zero]
  · exact le_of_lt (roundToFloat_pos x h)

theorem roundToFloat_ne_zero (x : ℚ) (hx : x ≠ 0) : roundToFloat x ≠ 0 := by
  rcases lt_or_gt_of_ne hx with h | h
  · exact ne_of_lt (roundToFloat_neg x h)
  · exact ne_of_gt (roundToFloat_pos x h)

/-- For a non-zero weight the ratio is a finite `float`. -/
theorem getRatio_finite (c : Cake) (hw : c.weight ≠ 0) :
    getRatio c = .finite (floatRatio c) := by
  have h : roundToFloat (c.weight : ℚ) ≠ 0 :=
    roundToFloat_ne_zero _ (by exact_mod_cast hw)
  unfold getRatio floatRatio
  simp only [h, if_false]

theorem getRatio_nonneg (c : Cake) (hw : 0 < c.weight) (hv : 0 ≤ c.value) :
    ∃ q : ℚ, 0 ≤ q ∧ getRatio c = .finite q := by
  refine ⟨_, ?_, getRatio_finite c (ne_of_gt hw)⟩
  apply roundToFloat_nonneg
  apply div_nonneg
  · exact roundToFloat_nonneg _ (by exact_mod_cast hv)
  · exact roundToFloat_nonneg _ (by exact_mod_cast le_of_lt hw)

theorem roundToFloat_neg_eq (x : ℚ) : roundToFloat (-x) = -roundToFloat x := by
  rcases lt_trichotomy x 0 with h | h | h
  · unfold roundToFloat
    rw [if_neg (by intro h0; linarith), if_neg (ne_of_lt h), abs_neg]
    simp only [show (0 : ℚ) < -x by linarith, if_true, show ¬ (0 : ℚ) < x by linarith, if_false]
    ring
  · rw [h]; simp [roundToFloat_zero]
  · unfold roundToFloat
    rw [if_neg (by intro h0; linarith), if_neg (ne_of_gt h), abs_neg]
    simp only [show ¬ (0 : ℚ) < -x by linarith, if_false, h, if_true]

theorem roundToFloat_error_pos (x : ℚ) (hx : 0 < x) :
    |roundToFloat x - x| ≤ x / 2 ^ 24 := by
  have habs : |x| = x := abs_of_pos hx
  obtain ⟨e1, -⟩ := exponent_spec x hx
  have hq : 0 < pow2 (exponent x - 23) := pow2_pos _
  have hsplit : pow2 (exponent x) = pow2 (exponent x - 23) * pow2 23 := by
    rw [← pow2_add]; congr 1; ring
  have h23 : pow2 23 = 8388608 := by
    rw [show (23 : Int) = ((23 : Nat) : Int) from rfl, pow2_natCast]; norm_num
  obtain ⟨r1, r2⟩ := roundHalfEven_bounds (x / pow2 (exponent x - 23))
  have hx_eq : x = x / pow2 (exponent x - 23) * pow2 (exponent x - 23) := by
    field_simp
  have hval : roundToFloat x
      = (roundHalfEven (x / pow2 (exponent x - 23)) : ℚ) * pow2 (exponent x - 23) := by
    unfold roundToFloat
    rw [if_neg (ne_of_gt hx), habs]
    simp only [hx, if_true]
  rw [hsplit, h23] at e1
  rw [hval, abs_le]
  have hqx : pow2 (exponent x - 23) / 2 ≤ x / 2 ^ 24 := by
    rw [div_le_div_iff₀ (by norm_num) (by norm_num)]
    nlinarith
  constructor
  · have : (x / pow2 (exponent x - 23) - 1 / 2) * pow2 (exponent x - 23)
        ≤ (roundHalfEven (x / pow2 (exponent x - 23)) : ℚ) * pow2 (exponent x - 23) :=
      mul_le_mul_of_nonneg_right r1 (le_of_lt hq)
    have e : (x / pow2 (exponent x - 23) - 1 / 2) * pow2 (exponent x - 23)
        = x - pow2 (exponent x - 23) / 2 := by
      field_simp
      ring
    rw [e] at this
    linarith
  · have : (roundHalfEven (x / pow2 (exponent x - 23)) : ℚ) * pow2 (exponent x - 23)
        ≤ (x / pow2 (exponent x - 23) + 1 / 2) * pow2 (exponent x - 23) :=
      mul_le_mul_of_nonneg_right r2 (le_of_lt hq)
    have e : (x / pow2 (exponent x - 23) + 1 / 2) * pow2 (exponent x - 23)
        = x + pow2 (exponent x - 23) / 2 := by
      field_simp
      ring
    rw [e] at this
    linarith

/-- The rounding to `float` moves a number by at most half a unit in the last of 24 binary
places: the relative error is at most `2 ^ -24`. -/
theorem roundToFloat_error (x : ℚ) : |roundToFloat x - x| ≤ |x| / 2 ^ 24 := by
  rcases lt_trichotomy x 0 with h | h | h
  · have hpos := roundToFloat_error_pos (-x) (by linarith)
    rw [roundToFloat_neg_eq] at hpos
    rw [abs_of_neg h]
    have e : -roundToFloat x - -x = -(roundToFloat x - x) := by ring
    rw [e, abs_neg] at hpos
    exact hpos
  · rw [h]; simp [roundToFloat_zero]
  · rw [abs_of_pos h]; exact roundToFloat_error_pos x h

theorem roundHalfEven_intCast (m : Int) : roundHalfEven (m : ℚ) = m := by
  unfold roundHalfEven
  simp

/-- An `int` of magnitude below `2 ^ 24` converts to `float` without rounding. -/
theorem roundToFloat_intCast_pos (n : Int) (h0 : 0 < n) (h : n < 2 ^ 24) :
    roundToFloat (n : ℚ) = n := by
  have hx : (0 : ℚ) < (n : ℚ) := by exact_mod_cast h0
  have habs : |(n : ℚ)| = n := abs_of_pos hx
  obtain ⟨e1, -⟩ := exponent_spec (n : ℚ) hx
  have hlt : (n : ℚ) < (2 : ℚ) ^ (24 : Int) := by
    have h3 : ((n : Int) : ℚ) < (((2 : Int) ^ 24 : Int) : ℚ) := by exact_mod_cast h
    have h4 : (2 : ℚ) ^ (24 : Int) = (((2 : Int) ^ 24 : Int) : ℚ) := by norm_num
    rw [h4]; exact h3
  have he : exponent (n : ℚ) ≤ 23 := by
    by_contra hcon
    have h24 : (24 : Int) ≤ exponent (n : ℚ) := by omega
    have hmono : (2 : ℚ) ^ (24 : Int) ≤ (2 : ℚ) ^ exponent (n : ℚ) :=
      zpow_le_zpow_right₀ (by norm_num) h24
    rw [pow2_eq_zpow] at e1
    linarith
  obtain ⟨k, hk⟩ : ∃ k : Nat, exponent (n : ℚ) - 23 = -(k : Int) :=
    ⟨(23 - exponent (n : ℚ)).toNat, by omega⟩
  have hq : pow2 (exponent (n : ℚ) - 23) = 1 / (2 : ℚ) ^ k := by
    rw [hk, pow2_eq_zpow, zpow_neg, zpow_natCast, one_div]
  have hdiv : (n : ℚ) / pow2 (exponent (n : ℚ) - 23) = ((n * 2 ^ k : Int) : ℚ) := by
    rw [hq]; push_cast; field_simp
  unfold roundToFloat
  rw [if_neg (ne_of_gt hx), habs]
  simp only [hx, if_true]
  rw [hdiv, roundHalfEven_intCast, hq]
  push_cast
  field_simp

theorem roundToFloat_intCast (n : Int) (h1 : -(2 ^ 24) < n) (h2 : n < 2 ^ 24) :
    roundToFloat (n : ℚ) = n := by
  rcases lt_trichotomy n 0 with h | h | h
  · have hpos := roundToFloat_intCast_pos (-n) (by omega) (by omega)
    push_cast at hpos
    rw [roundToFloat_neg_eq] at hpos
    linarith
  · rw [h]; simp [roundToFloat_zero]
  · exact roundToFloat_intCast_pos n h h2

/-- For weights and values of magnitude below `2 ^ 24` the only rounding in `getRatio` is that
of the quotient. -/
theorem floatRatio_small (c : Cake) (hw1 : -(2 ^ 24) < c.weight) (hw2 : c.weight < 2 ^ 24)
    (hv1 : -(2 ^ 24) < c.value) (hv2 : c.value < 2 ^ 24) :
    floatRatio c = roundToFloat ((c.value : ℚ) / (c.weight : ℚ)) := by
  unfold floatRatio
  rw [roundToFloat_intCast c.value hv1 hv2, roundToFloat_intCast c.weight hw1 hw2]

theorem roundToFloat_abs_bounds (x : ℚ) :
    |x| / 2 ≤ |roundToFloat x| ∧ |roundToFloat x| ≤ 2 * |x| := by
  have herr := roundToFloat_error x
  have h1 : |roundToFloat x| ≤ |x| + |roundToFloat x - x| := by
    have := abs_add x (roundToFloat x - x)
    simpa using this
  have h2 : |x| ≤ |roundToFloat x| + |roundToFloat x - x| := by
    have := abs_add (roundToFloat x) (x - roundToFloat x)
    rw [abs_sub_comm x (roundToFloat x)] at this
    simpa using this
  have h3 : |x| / 2 ^ 24 ≤ |x| / 2 := by
    apply div_le_div_of_nonneg_left (abs_nonneg x) (by norm_num) (by norm_num)
  have h4 : 0 ≤ |x| := abs_nonneg x
  constructor <;> linarith

/-- The conversions and the quotient in `getRatio` stay inside the normal range of `float`,
between `2 ^ -126` and `2 ^ 128`: for `int` operands other than 0 the quotient of the converted
operands has a magnitude between `2 ^ -33` and `2 ^ 33`. -/
theorem getRatio_quotient_range (c : Cake) (hw : isInt c.weight) (hv : isInt c.value)
    (hw0 : c.weight ≠ 0) (hv0 : c.value ≠ 0) :
    1 / 2 ^ 33 ≤ |roundToFloat c.value / roundToFloat c.weight| ∧
      |roundToFloat c.value / roundToFloat c.weight| ≤ 2 ^ 33 := by
  have bound : ∀ n : Int, isInt n → n ≠ 0 →
      (1 : ℚ) / 2 ≤ |roundToFloat n| ∧ |roundToFloat n| ≤ 2 ^ 32 := by
    intro n hn h0
    obtain ⟨b1, b2⟩ := roundToFloat_abs_bounds (n : ℚ)
    have hlo : (1 : ℚ) ≤ |(n : ℚ)| := by
      have : (1 : Int) ≤ |n| := Int.one_le_abs h0
      exact_mod_cast this
    have hhi : |(n : ℚ)| ≤ 2 ^ 31 := by
      have h1 := hn.1
      have h2 := hn.2
      unfold INT_MIN at h1
      unfold INT_MAX at h2
      have : |n| ≤ (2 : Int) ^ 31 := by
        rw [abs_le]; constructor <;> omega
      exact_mod_cast this
    constructor <;> linarith
  obtain ⟨v1, v2⟩ := bound c.value hv hv0
  obtain ⟨w1, w2⟩ := bound c.weight hw hw0
  have hwpos : (0 : ℚ) < |roundToFloat c.weight| := by linarith
  rw [abs_div]
  constructor
  · rw [div_le_div_iff₀ (by norm_num) hwpos]
    nlinarith
  · rw [div_le_iff₀ hwpos]
    nlinarith

theorem Float32.gt_irrefl (a : Float32) : a.gt a = false := by
  cases a with
  | finite x => simp [Float32.gt]
  | infinity n => cases n <;> rfl
  | nan => rfl

theorem cakeComparator_self (A : Cake) (hw : A.weight ≠ 0) : cakeComparator A A = false := by
  have heq : (getRatio A).eq (getRatio A) = true := by
    rw [getRatio_finite A hw]; simp [Float32.eq]
  unfold cakeComparator
  simp [Float32.gt_irrefl, heq]

theorem int32_ok (x : Int) (h1 : INT_MIN ≤ x) (h2 : x ≤ INT_MAX) : int32 x = .ok x := by
  unfold int32; rw [if_pos ⟨h1, h2⟩]

theorem pqLoop_negative (capacity : Int) (hcap : capacity < 0) (queue : List Cake) :
    pqLoop capacity queue 0 = .ok 0 := by
  have h0 : ¬ capacity > 0 := by omega
  cases queue with
  | nil => rfl
  | cons c queue => simp [pqLoop, pqPass, h0, bind, Except.bind]

theorem sortLoop_negative (capacity : Int) (hcap : capacity < 0) (cakes : List Cake)
    (left : Nat) : sortLoop capacity cakes left 0 0 = .ok 0 := by
  have h0 : ¬ capacity > 0 := by omega
  cases left with
  | zero => rfl
  | succ left =>
    have hp : ∀ m, sortPass cakes 0 m false 0 capacity (.finite (-1)) = .ok (false, 0) := by
      intro m
      cases m with
      | zero => rfl
      | succ m => simp [sortPass, h0]
    simp [sortLoop, hp, bind, Except.bind]

/-- At capacity -1 the pass for a cake leaves the empty array as it is, or indexes it. -/
theorem innerLoop_capacity_minus_one (c : Cake) (hc : isInt c.weight) :
    innerLoop (-1) c (tripCount (-1) c) 0 [] = .ok [] ∨
      innerLoop (-1) c (tripCount (-1) c) 0 [] = .error .outOfBounds := by
  by_cases hw : 0 ≤ c.weight
  · left
    have ht : tripCount (-1) c = 0 := by unfold tripCount; omega
    rw [ht]; rfl
  · right
    obtain ⟨t, ht⟩ : ∃ t, tripCount (-1) c = t + 1 :=
      ⟨tripCount (-1) c - 1, by unfold tripCount; omega⟩
    have hsum : int32 (0 + c.weight) = .ok c.weight := by
      rw [zero_add]; exact int32_ok _ hc.1 hc.2
    have hread : readAt [] c.weight = .error .outOfBounds := by
      unfold readAt; rw [if_pos (by omega)]
    have hguard : c.weight ≤ -1 := by omega
    rw [ht, innerLoop, hsum]
    simp only [bind, Except.bind, hguard, if_true, relax, hsum, hread]

theorem foldlM_capacity_minus_one :
    ∀ cakes : List Cake, (∀ c ∈ cakes, isInt c.weight) →
      cakes.foldlM (fun max_value c => innerLoop (-1) c (tripCount (-1) c) 0 max_value) []
          = .ok [] ∨
        cakes.foldlM (fun max_value c => innerLoop (-1) c (tripCount (-1) c) 0 max_value) []
          = .error .outOfBounds := by
  intro cakes
  induction cakes with
  | nil => intro _; exact Or.inl rfl
  | cons c cakes ih =>
    intro h
    rw [List.foldlM_cons]
    rcases innerLoop_capacity_minus_one c (h c (List.mem_cons_self _ _)) with h1 | h1
    · rw [h1]
      exact ih (fun d hd => h d (List.mem_cons_of_mem _ hd))
    · rw [h1]; exact Or.inr rfl

theorem maxValueIterative_minus_one (cakes : List Cake) (h : ∀ c ∈ cakes, isInt c.weight) :
    maxValueIterative (-1) cakes = .error .outOfBounds := by
  have hsize : int32 (-1 + 1) = .ok 0 := rfl
  have hnew : newArray 0 = .ok [] := rfl
  unfold maxValueIterative
  rw [hsize]
  simp only [bind, Except.bind, hnew]
  rcases foldlM_capacity_minus_one cakes h with h1 | h1
  · rw [h1]; rfl
  · rw [h1]

theorem maxValueIterative_below_minus_one (capacity : Int) (hint : isInt capacity)
    (hcap : capacity < -1) (cakes : List Cake) :
    maxValueIterative capacity cakes = .error .badArrayNewLength := by
  have hsize : int32 (capacity + 1) = .ok (capacity + 1) := by
    apply int32_ok
    · have := hint.1; unfold INT_MIN at *; omega
    · have := hint.2; unfold INT_MAX at *; omega
  have hnew : newArray (capacity + 1) = .error .badArrayNewLength := by
    unfold newArray; rw [if_pos (by omega)]
  unfold maxValueIterative
  rw [hsize]
  simp only [bind, Except.bind, hnew]

theorem cakeComparator_iff_float (A B : Cake) (hA : A.weight ≠ 0) (hB : B.weight ≠ 0) :
    cakeComparator A B = true ↔
      floatRatio A < floatRatio B ∨ (floatRatio A = floatRatio B ∧ B.weight < A.weight) := by
  unfold cakeComparator
  rw [getRatio_finite A hA, getRatio_finite B hB]
  simp only [Float32.gt, Float32.eq]
  rcases lt_trichotomy (floatRatio A) (floatRatio B) with h | h | h
  · have h1 : ¬ floatRatio B < floatRatio A := not_lt.2 (le_of_lt h)
    have h2 : ¬ floatRatio A = floatRatio B := ne_of_lt h
    simp [h1, h2, h]
  · simp [h]
  · have h2 : ¬ floatRatio A = floatRatio B := ne_of_gt h
    have h3 : ¬ floatRatio A < floatRatio B := not_lt.2 (le_of_lt h)
    simp [h, h2, h3]

theorem cakeComparator_false_iff_float (A B : Cake) (hA : A.weight ≠ 0) (hB : B.weight ≠ 0) :
    cakeComparator A B = false ↔
      floatRatio B ≤ floatRatio A ∧ (floatRatio A = floatRatio B → A.weight ≤ B.weight) := by
  rw [← Bool.not_eq_true, cakeComparator_iff_float A B hA hB]
  constructor
  · intro h
    rw [not_or] at h
    refine ⟨not_lt.1 h.1, fun heq => ?_⟩
    by_contra hlt
    exact h.2 ⟨heq, by omega⟩
  · rintro ⟨h1, h2⟩ h
    rcases h with h | ⟨heq, hlt⟩
    · exact absurd h (not_lt.2 h1)
    · have := h2 heq; omega

/-- On cakes of non-zero weight the comparator is asymmetric. -/
theorem cakeComparator_asymm_float (A B : Cake) (hA : A.weight ≠ 0) (hB : B.weight ≠ 0)
    (h : cakeComparator A B = true) : cakeComparator B A = false := by
  rw [cakeComparator_iff_float A B hA hB] at h
  rw [cakeComparator_false_iff_float B A hB hA]
  rcases h with h | ⟨heq, hlt⟩
  · exact ⟨le_of_lt h, fun heq => absurd heq.symm (ne_of_lt h)⟩
  · exact ⟨le_of_eq heq, fun _ => by omega⟩

/-- On cakes of non-zero weight the comparator is transitive. -/
theorem cakeComparator_trans_float (A B C : Cake) (hA : A.weight ≠ 0) (hB : B.weight ≠ 0)
    (hC : C.weight ≠ 0) (h1 : cakeComparator A B = true) (h2 : cakeComparator B C = true) :
    cakeComparator A C = true := by
  rw [cakeComparator_iff_float _ _ hA hB] at h1
  rw [cakeComparator_iff_float _ _ hB hC] at h2
  rw [cakeComparator_iff_float _ _ hA hC]
  rcases h1 with h1 | ⟨e1, w1⟩
  · rcases h2 with h2 | ⟨e2, w2⟩
    · exact Or.inl (lt_trans h1 h2)
    · exact Or.inl (by rw [← e2]; exact h1)
  · rcases h2 with h2 | ⟨e2, w2⟩
    · exact Or.inl (by rw [e1]; exact h2)
    · exact Or.inr ⟨e1.trans e2, by omega⟩

/-- On cakes of non-zero weight "not below" is transitive, so the comparator is a strict weak
ordering there, as `priority_queue` and `sort` require. -/
theorem cakeComparator_false_trans_float (A B C : Cake) (hA : A.weight ≠ 0)
    (hB : B.weight ≠ 0) (hC : C.weight ≠ 0) (h1 : cakeComparator A B = false)
    (h2 : cakeComparator B C = false) : cakeComparator A C = false := by
  rw [cakeComparator_false_iff_float _ _ hA hB] at h1
  rw [cakeComparator_false_iff_float _ _ hB hC] at h2
  rw [cakeComparator_false_iff_float _ _ hA hC]
  obtain ⟨hab, hab'⟩ := h1
  obtain ⟨hbc, hbc'⟩ := h2
  refine ⟨le_trans hbc hab, fun heq => ?_⟩
  have e1 : floatRatio A = floatRatio B := le_antisymm (by rw [heq]; exact hbc) hab
  have e2 : floatRatio B = floatRatio C := by rw [← e1]; exact heq
  exact le_trans (hab' e1) (hbc' e2)

/-- The cake `Cake()` of weight 0 and value 0 has a NaN ratio and is below itself under the
comparator, which is then no strict weak ordering. -/
theorem cakeComparator_nan : getRatio ⟨0, 0⟩ = .nan ∧ cakeComparator ⟨0, 0⟩ ⟨0, 0⟩ = true := by
  decide!

theorem push_perm_float (c : Cake) : ∀ q : List Cake, (push c q).Perm (c :: q) := by
  intro q
  induction q with
  | nil => simp [push]
  | cons d q ih =>
    unfold push
    split
    · exact ((ih.cons d).trans (List.Perm.swap c d q))
    · exact List.Perm.refl _

theorem push_pairwise_float (c : Cake) (hc : c.weight ≠ 0) :
    ∀ q : List Cake, (∀ d ∈ q, d.weight ≠ 0) →
      q.Pairwise (fun a b => cakeComparator a b = false) →
      (push c q).Pairwise (fun a b => cakeComparator a b = false) := by
  intro q
  induction q with
  | nil => intro _ _; simp [push]
  | cons d q ih =>
    intro hz h
    have hdz := hz d (List.mem_cons_self _ _)
    have hqz : ∀ x ∈ q, x.weight ≠ 0 := fun x hx => hz x (List.mem_cons_of_mem _ hx)
    rw [List.pairwise_cons] at h
    obtain ⟨hd, hq⟩ := h
    unfold push
    split
    · rename_i hcd
      rw [List.pairwise_cons]
      refine ⟨fun x hx => ?_, ih hqz hq⟩
      rcases List.mem_cons.1 ((push_perm_float c q).mem_iff.1 hx) with h1 | h1
      · rw [h1]; exact cakeComparator_asymm_float c d hc hdz hcd
      · exact hd x h1
    · rename_i hcd
      have hcd' : cakeComparator c d = false := by simpa using hcd
      rw [List.pairwise_cons]
      refine ⟨fun x hx => ?_, List.pairwise_cons.2 ⟨hd, hq⟩⟩
      rcases List.mem_cons.1 hx with h1 | h1
      · rw [h1]; exact hcd'
      · exact cakeComparator_false_trans_float c d x hc hdz (hqz x h1) hcd' (hd x h1)

theorem foldl_push_float :
    ∀ cakes queue : List Cake, (∀ c ∈ cakes, c.weight ≠ 0) → (∀ c ∈ queue, c.weight ≠ 0) →
      queue.Pairwise (fun a b => cakeComparator a b = false) →
      (cakes.foldl (fun queue c => push c queue) queue).Perm (queue ++ cakes) ∧
        (cakes.foldl (fun queue c => push c queue) queue).Pairwise
          (fun a b => cakeComparator a b = false) := by
  intro cakes
  induction cakes with
  | nil => intro queue _ _ h; simpa using h
  | cons c cakes ih =>
    intro queue hz hq h
    have hcz := hz c (List.mem_cons_self _ _)
    have hpz : ∀ x ∈ push c queue, x.weight ≠ 0 := by
      intro x hx
      rcases List.mem_cons.1 ((push_perm_float c queue).mem_iff.1 hx) with h1 | h1
      · rw [h1]; exact hcz
      · exact hq x h1
    obtain ⟨h2, h1⟩ := ih (push c queue) (fun x hx => hz x (List.mem_cons_of_mem _ hx)) hpz
      (push_pairwise_float c hcz queue hq h)
    refine ⟨h2.trans ?_, h1⟩
    have h3 : (push c queue ++ cakes).Perm ((c :: queue) ++ cakes) :=
      (push_perm_float c queue).append_right cakes
    refine h3.trans ?_
    have h4 : (queue ++ c :: cakes).Perm (c :: (queue ++ cakes)) := List.perm_middle
    simpa using h4.symm

/-- For cakes of non-zero weight the queue `buildQueue` delivers a pop order. -/
theorem buildQueue_isPopOrder (cakes : List Cake) (hz : ∀ c ∈ cakes, c.weight ≠ 0) :
    IsPopOrder cakes (buildQueue cakes) := by
  have := foldl_push_float cakes [] hz (by simp) List.Pairwise.nil
  simpa [buildQueue, IsPopOrder] using this

theorem sortInsert_perm_float (c : Cake) : ∀ l : List Cake, (sortInsert c l).Perm (c :: l) := by
  intro l
  induction l with
  | nil => simp [sortInsert]
  | cons d l ih =>
    unfold sortInsert
    split
    · exact List.Perm.refl _
    · exact ((ih.cons d).trans (List.Perm.swap c d l))

theorem sortInsert_pairwise_float (c : Cake) (hc : c.weight ≠ 0) :
    ∀ l : List Cake, (∀ d ∈ l, d.weight ≠ 0) →
      l.Pairwise (fun a b => cakeComparator b a = false) →
      (sortInsert c l).Pairwise (fun a b => cakeComparator b a = false) := by
  intro l
  induction l with
  | nil => intro _ _; simp [sortInsert]
  | cons d l ih =>
    intro hz h
    have hdz := hz d (List.mem_cons_self _ _)
    have hlz : ∀ x ∈ l, x.weight ≠ 0 := fun x hx => hz x (List.mem_cons_of_mem _ hx)
    rw [List.pairwise_cons] at h
    obtain ⟨hd, hl⟩ := h
    unfold sortInsert
    split
    · rename_i hcd
      have hdc : cakeComparator d c = false := cakeComparator_asymm_float c d hc hdz hcd
      rw [List.pairwise_cons]
      refine ⟨fun x hx => ?_, List.pairwise_cons.2 ⟨hd, hl⟩⟩
      rcases List.mem_cons.1 hx with h1 | h1
      · rw [h1]; exact hdc
      · exact cakeComparator_false_trans_float x d c (hlz x h1) hdz hc (hd x h1) hdc
    · rename_i hcd
      have hcd' : cakeComparator c d = false := by simpa using hcd
      rw [List.pairwise_cons]
      refine ⟨fun x hx => ?_, ih hlz hl⟩
      rcases List.mem_cons.1 ((sortInsert_perm_float c l).mem_iff.1 hx) with h1 | h1
      · rw [h1]; exact hcd'
      · exact hd x h1

/-- For cakes of non-zero weight `sortCakes` leaves a sort order. -/
theorem sortCakes_isSortOrder :
    ∀ cakes : List Cake, (∀ c ∈ cakes, c.weight ≠ 0) → IsSortOrder cakes (sortCakes cakes) := by
  intro cakes
  induction cakes with
  | nil => intro _; exact ⟨List.Perm.refl _, List.Pairwise.nil⟩
  | cons c cakes ih =>
    intro hz
    have hcz := hz c (List.mem_cons_self _ _)
    obtain ⟨hperm, hpw⟩ := ih (fun x hx => hz x (List.mem_cons_of_mem _ hx))
    have hsz : ∀ d ∈ sortCakes cakes, d.weight ≠ 0 :=
      fun d hd => hz d (List.mem_cons_of_mem _ (hperm.mem_iff.1 hd))
    have hstep : sortCakes (c :: cakes) = sortInsert c (sortCakes cakes) := rfl
    rw [hstep]
    exact ⟨(sortInsert_perm_float c _).trans (hperm.cons c),
      sortInsert_pairwise_float c hcz _ hsz hpw⟩

theorem intDiv_nonneg (a b : Int) (ha : 0 ≤ a) (hmax : a ≤ INT_MAX) (hb : 0 < b) :
    intDiv a b = .ok (a / b) := by
  have hq : a.tdiv b = a / b := Int.tdiv_eq_ediv ha (le_of_lt hb)
  have h1 : 0 ≤ a / b := Int.ediv_nonneg ha (le_of_lt hb)
  have h2 : a / b ≤ a := Int.ediv_le_self b ha
  unfold intDiv
  rw [if_neg (ne_of_gt hb), hq]
  exact int32_ok _ (by unfold INT_MIN; omega) (by omega)

theorem intMod_nonneg (a b : Int) (ha : 0 ≤ a) (hmax : a ≤ INT_MAX) (hb : 0 < b) :
    intMod a b = .ok (a % b) := by
  have hq : a.tdiv b = a / b := Int.tdiv_eq_ediv ha (le_of_lt hb)
  have hr : a.tmod b = a % b := Int.tmod_eq_emod ha (le_of_lt hb)
  have h1 : 0 ≤ a / b := Int.ediv_nonneg ha (le_of_lt hb)
  have h2 : a / b ≤ a := Int.ediv_le_self b ha
  have hok : int32 (a / b) = .ok (a / b) :=
    int32_ok _ (by unfold INT_MIN; omega) (by omega)
  unfold intMod
  rw [if_neg (ne_of_gt hb), hq, hok, hr]
  rfl

theorem emod_le_self_of_nonneg (a b : Int) (ha : 0 ≤ a) (hb : 0 < b) : a % b ≤ a := by
  have h1 : 0 ≤ a / b := Int.ediv_nonneg ha (le_of_lt hb)
  have h2 := Int.emod_add_ediv a b
  have h3 : 0 ≤ b * (a / b) := mul_nonneg (le_of_lt hb) h1
  omega

/-- After its first iteration a pass of `maxValueGreedySort` adds nothing: the remainder is
divided by the weight of the same cake `cakes[i]` again. -/
theorem sortPass_idle_int (cakes : List Cake) (i : Nat) (c : Cake)
    (hget : cakes[i]? = some c) (hw : 0 < c.weight) (temp_value : Int)
    (hval : isInt temp_value) :
    ∀ (left : Nat) (rep : Bool) (temp_capacity : Int) (prev_ratio : Float32),
      0 ≤ temp_capacity → temp_capacity < c.weight → temp_capacity ≤ INT_MAX →
      ∃ rep', sortPass cakes i left rep temp_value temp_capacity prev_ratio
        = .ok (rep', temp_value) := by
  intro left
  induction left with
  | zero => intro rep tc pr _ _ _; exact ⟨rep, rfl⟩
  | succ left ih =>
    intro rep tc pr h0 hlt hmax
    unfold sortPass
    by_cases hpos : tc > 0
    · have hdiv : intDiv tc c.weight = .ok 0 := by
        rw [intDiv_nonneg tc c.weight h0 hmax hw, Int.ediv_eq_zero_of_lt h0 hlt]
      have hmod : intMod tc c.weight = .ok tc := by
        rw [intMod_nonneg tc c.weight h0 hmax hw, Int.emod_eq_of_lt h0 hlt]
      have hgain : int32 (0 * c.value) = .ok 0 := by rw [zero_mul]; rfl
      have hsum : int32 (temp_value + 0) = .ok temp_value := by
        rw [add_zero]; exact int32_ok _ hval.1 hval.2
      rw [if_pos hpos, hget]
      simp only [hdiv, bind, Except.bind, hgain, hsum, hmod]
      exact ih _ tc _ h0 hlt hmax
    · rw [if_neg hpos]
      exact ⟨rep, rfl⟩

/-- A pass of `maxValueGreedySort` from offset `i` yields 0 or what the single cake `cakes[i]`
yields when taken as often as it fits, provided that product is an `int`. -/
theorem sortPass_single_int (capacity : Int) (hcap : 0 ≤ capacity) (hmax : capacity ≤ INT_MAX)
    (cakes : List Cake) (i : Nat) (c : Cake) (hget : cakes[i]? = some c) (hw : 0 < c.weight)
    (hv : 0 ≤ c.value) (hfit : capacity / c.weight * c.value ≤ INT_MAX) (left : Nat) :
    ∃ rep' tv', sortPass cakes i left false 0 capacity (.finite (-1)) = .ok (rep', tv') ∧
      (tv' = 0 ∨ tv' = capacity / c.weight * c.value) := by
  cases left with
  | zero => exact ⟨false, 0, rfl, Or.inl rfl⟩
  | succ left =>
    unfold sortPass
    by_cases hpos : capacity > 0
    · have hn : 0 ≤ capacity / c.weight := Int.ediv_nonneg hcap (le_of_lt hw)
      have hprod : 0 ≤ capacity / c.weight * c.value := mul_nonneg hn hv
      have hdiv := intDiv_nonneg capacity c.weight hcap hmax hw
      have hmod := intMod_nonneg capacity c.weight hcap hmax hw
      have hgain : int32 (capacity / c.weight * c.value)
          = .ok (capacity / c.weight * c.value) :=
        int32_ok _ (by unfold INT_MIN; omega) hfit
      have hsum : int32 (0 + capacity / c.weight * c.value)
          = .ok (capacity / c.weight * c.value) := by rw [zero_add]; exact hgain
      have hrem0 : 0 ≤ capacity % c.weight := Int.emod_nonneg capacity (ne_of_gt hw)
      have hrem1 : capacity % c.weight < c.weight := Int.emod_lt_of_pos capacity hw
      have hrem2 : capacity % c.weight ≤ INT_MAX :=
        le_trans (emod_le_self_of_nonneg capacity c.weight hcap hw) hmax
      obtain ⟨rep', hidle⟩ := sortPass_idle_int cakes i c hget hw
        (capacity / c.weight * c.value) ⟨by unfold INT_MIN; omega, hfit⟩ left
        (if (Float32.finite (-1)).eq (getRatio c) = true then true else false)
        (capacity % c.weight) (getRatio c) hrem0 hrem1 hrem2
      rw [if_pos hpos, hget]
      simp only [hdiv, bind, Except.bind, hgain, hsum, hmod]
      exact ⟨rep', _, hidle, Or.inr rfl⟩
    · rw [if_neg hpos]
      exact ⟨false, 0, rfl, Or.inl rfl⟩

theorem sortLoop_single_int (capacity : Int) (hcap : 0 ≤ capacity) (hmax : capacity ≤ INT_MAX)
    (cakes : List Cake) (hw : ∀ c ∈ cakes, 0 < c.weight) (hv : ∀ c ∈ cakes, 0 ≤ c.value)
    (hfit : ∀ c ∈ cakes, capacity / c.weight * c.value ≤ INT_MAX) :
    ∀ (left i : Nat) (max_value : Int), i + left ≤ cakes.length →
      (max_value = 0 ∨ ∃ c ∈ cakes, max_value = capacity / c.weight * c.value) →
      ∃ r, sortLoop capacity cakes left i max_value = .ok r ∧
        (r = 0 ∨ ∃ c ∈ cakes, r = capacity / c.weight * c.value) := by
  intro left
  induction left with
  | zero => intro i mv _ hmv; exact ⟨mv, rfl, hmv⟩
  | succ left ih =>
    intro i mv hi hmv
    have hlt : i < cakes.length := by omega
    have hget : cakes[i]? = some cakes[i] := List.getElem?_eq_getElem hlt
    have hmem : cakes[i] ∈ cakes := List.getElem_mem hlt
    obtain ⟨rep', tv', hpass, htv⟩ := sortPass_single_int capacity hcap hmax cakes i cakes[i]
      hget (hw _ hmem) (hv _ hmem) (hfit _ hmem) (cakes.length - i)
    have hmaxv : max mv tv' = 0 ∨
        ∃ c ∈ cakes, max mv tv' = capacity / c.weight * c.value := by
      rcases max_choice mv tv' with h | h
      · rw [h]; exact hmv
      · rw [h]
        rcases htv with h0 | h1
        · exact Or.inl h0
        · exact Or.inr ⟨cakes[i], hmem, h1⟩
    unfold sortLoop
    rw [hpass]
    simp only [bind, Except.bind]
    cases rep' with
    | false => exact ⟨_, rfl, hmaxv⟩
    | true => exact ih (i + 1) _ (by omega) hmaxv

/-- A pass over a queue without two equal consecutive `float` ratios, in which no `int`
overflows, never sets `repeat` and adds the value of the pass described in the text. -/
theorem pqPass_no_ties_int :
    ∀ (q : List Cake) (rep : Bool) (temp_value temp_capacity : Int) (prev_ratio : Float32),
      0 ≤ temp_capacity → temp_capacity ≤ INT_MAX → 0 ≤ temp_value →
      (∀ c ∈ q, 0 < c.weight) → (∀ c ∈ q, 0 ≤ c.value) →
      temp_value + singlePass temp_capacity q ≤ INT_MAX →
      (∀ c ∈ q, prev_ratio.eq (getRatio c) = false) →
      q.Pairwise (fun a b => (getRatio a).eq (getRatio b) = false) →
      pqPass q rep temp_value temp_capacity prev_ratio
        = .ok (rep, temp_value + singlePass temp_capacity q) := by
  intro q
  induction q with
  | nil => intro rep tv tc pr _ _ _ _ _ _ _ _; simp [pqPass, singlePass]
  | cons c q ih =>
    intro rep tv tc pr htc hmax htv hw hv hfit hpr hpw
    have hcw := hw c (List.mem_cons_self _ _)
    have hcv := hv c (List.mem_cons_self _ _)
    rw [List.pairwise_cons] at hpw
    have hn : 0 ≤ tc / c.weight := Int.ediv_nonneg htc (le_of_lt hcw)
    have hprod : 0 ≤ tc / c.weight * c.value := mul_nonneg hn hcv
    have hrem0 : 0 ≤ tc % c.weight := Int.emod_nonneg tc (ne_of_gt hcw)
    have hrest : 0 ≤ singlePass (tc % c.weight) q :=
      singlePass_nonneg q _ hrem0 (fun d hd => hw d (List.mem_cons_of_mem _ hd))
        (fun d hd => hv d (List.mem_cons_of_mem _ hd))
    have hsp : singlePass tc (c :: q)
        = tc / c.weight * c.value + singlePass (tc % c.weight) q := rfl
    unfold pqPass
    by_cases hpos : tc > 0
    · have hne : ¬ (pr.eq (getRatio c) = true) := by
        rw [hpr c (List.mem_cons_self _ _)]; simp
      have hdiv := intDiv_nonneg tc c.weight htc hmax hcw
      have hmod := intMod_nonneg tc c.weight htc hmax hcw
      have hgain : int32 (tc / c.weight * c.value) = .ok (tc / c.weight * c.value) :=
        int32_ok _ (by unfold INT_MIN; omega) (by omega)
      have hsum : int32 (tv + tc / c.weight * c.value)
          = .ok (tv + tc / c.weight * c.value) :=
        int32_ok _ (by unfold INT_MIN; omega) (by omega)
      rw [if_pos hpos]
      simp only [hne, if_false, hdiv, bind, Except.bind, hgain, hsum, hmod]
      have hstep := ih rep (tv + tc / c.weight * c.value) (tc % c.weight) (getRatio c) hrem0
        (le_trans (emod_le_self_of_nonneg tc c.weight htc hcw) hmax) (by omega)
        (fun d hd => hw d (List.mem_cons_of_mem _ hd))
        (fun d hd => hv d (List.mem_cons_of_mem _ hd)) (by omega)
        (fun d hd => hpw.1 d hd) hpw.2
      simp only [Bool.false_eq_true, if_false]
      rw [hstep]
      rw [hsp, add_assoc]
    · have h0 : tc = 0 := by omega
      rw [if_neg hpos, h0, singlePass_zero]
      simp

theorem int32_fault (x : Int) (e : Fault) (h : int32 x = .error e) : e = .signedOverflow := by
  unfold int32 at h
  split at h
  · cases h
  · cases h; rfl

theorem readAt_fault (a : List Int) (i : Int) (e : Fault) (h : readAt a i = .error e) :
    e = .outOfBounds := by
  unfold readAt at h
  split at h
  · cases h; rfl
  · split at h
    · cases h
    · cases h; rfl

theorem writeAt_fault (a : List Int) (i x : Int) (e : Fault) (h : writeAt a i x = .error e) :
    e = .outOfBounds := by
  unfold writeAt at h
  split at h
  · cases h; rfl
  · split at h
    · cases h
    · cases h; rfl

theorem relax_fault (c : Cake) (a : List Int) (k : Int) (e : Fault)
    (h : relax c a k = .error e) : e = .outOfBounds ∨ e = .signedOverflow := by
  unfold relax at h
  cases h1 : int32 (k + c.weight) with
  | error e1 =>
    rw [h1] at h
    cases h
    exact Or.inr (int32_fault _ _ h1)
  | ok i =>
    rw [h1] at h
    cases h2 : readAt a i with
    | error e2 =>
      simp only [h2, bind, Except.bind] at h
      cases h
      exact Or.inl (readAt_fault _ _ _ h2)
    | ok cur =>
      cases h3 : readAt a k with
      | error e3 =>
        simp only [h2, h3, bind, Except.bind] at h
        cases h
        exact Or.inl (readAt_fault _ _ _ h3)
      | ok prev =>
        cases h4 : int32 (prev + c.value) with
        | error e4 =>
          simp only [h2, h3, h4, bind, Except.bind] at h
          cases h
          exact Or.inr (int32_fault _ _ h4)
        | ok candidate =>
          simp only [h2, h3, h4, bind, Except.bind] at h
          exact Or.inl (writeAt_fault _ _ _ _ h)

/-- The faults that a pass of `maxValueIterative` can meet are those of undefined behaviour: an
access outside the array or an `int` overflow. -/
theorem innerLoop_fault (capacity : Int) (c : Cake) :
    ∀ (trips : Nat) (k : Int) (a : List Int) (e : Fault),
      innerLoop capacity c trips k a = .error e → e = .outOfBounds ∨ e = .signedOverflow := by
  intro trips
  induction trips with
  | zero => intro k a e h; cases h
  | succ trips ih =>
    intro k a e h
    unfold innerLoop at h
    cases h1 : int32 (k + c.weight) with
    | error e1 =>
      rw [h1] at h
      cases h
      exact Or.inr (int32_fault _ _ h1)
    | ok s =>
      simp only [h1, bind, Except.bind] at h
      by_cases hs : s ≤ capacity
      · rw [if_pos hs] at h
        cases h2 : relax c a k with
        | error e2 =>
          simp only [h2] at h
          cases h
          exact relax_fault _ _ _ _ h2
        | ok a2 =>
          cases h3 : int32 (k + 1) with
          | error e3 =>
            simp only [h2, h3] at h
            cases h
            exact Or.inr (int32_fault _ _ h3)
          | ok k2 =>
            simp only [h2, h3] at h
            exact ih _ _ _ h
      · rw [if_neg hs] at h
        cases h

/-- The pass of a cake of negative weight writes `max_value[weight]` in its first iteration,
a cell before the array. -/
theorem innerLoop_negative_weight (capacity : Int) (hcap : 0 ≤ capacity) (c : Cake)
    (hint : isInt c.weight) (hw : c.weight < 0) (a : List Int) :
    innerLoop capacity c (tripCount capacity c) 0 a = .error .outOfBounds := by
  have ht : tripCount capacity c = (tripCount capacity c - 1) + 1 := by
    unfold tripCount; omega
  have hs : int32 (0 + c.weight) = .ok c.weight := by
    rw [zero_add]; exact int32_ok _ hint.1 hint.2
  have hle : c.weight ≤ capacity := by omega
  have hread : readAt a c.weight = .error .outOfBounds := by
    unfold readAt; rw [if_pos hw]
  rw [ht]
  unfold innerLoop
  simp only [hs, bind, Except.bind, if_pos hle, relax, hread]

theorem foldlM_negative_weight (capacity : Int) (hcap : 0 ≤ capacity) :
    ∀ (cakes : List Cake) (a : List Int), (∀ c ∈ cakes, isInt c.weight) →
      (∃ c ∈ cakes, c.weight < 0) →
      ∃ e, cakes.foldlM
          (fun max_value c => innerLoop capacity c (tripCount capacity c) 0 max_value) a
          = .error e ∧ (e = .outOfBounds ∨ e = .signedOverflow) := by
  intro cakes
  induction cakes with
  | nil => intro a _ h; obtain ⟨c, hc, -⟩ := h; cases hc
  | cons d cakes ih =>
    intro a hint hneg
    rw [List.foldlM_cons]
    cases hd : innerLoop capacity d (tripCount capacity d) 0 a with
    | error e =>
      exact ⟨e, rfl, innerLoop_fault _ _ _ _ _ _ hd⟩
    | ok a2 =>
      have hdw : ¬ d.weight < 0 := by
        intro hlt
        rw [innerLoop_negative_weight capacity hcap d (hint d (List.mem_cons_self _ _)) hlt a]
          at hd
        cases hd
      obtain ⟨c, hc, hcw⟩ := hneg
      have hc2 : c ∈ cakes := by
        rcases List.mem_cons.1 hc with h | h
        · rw [h] at hcw; exact absurd hcw hdw
        · exact h
      exact ih a2 (fun x hx => hint x (List.mem_cons_of_mem _ hx)) ⟨c, hc2, hcw⟩

/-- With a cake of negative weight and a capacity that is not negative, `maxValueIterative`
leaves defined behaviour: it accesses a cell outside `max_value` or overflows an `int`. -/
theorem maxValueIterative_negative_weight (capacity : Int) (hcap : 0 ≤ capacity)
    (cakes : List Cake) (hint : ∀ c ∈ cakes, isInt c.weight) (hneg : ∃ c ∈ cakes, c.weight < 0) :
    ∃ e, maxValueIterative capacity cakes = .error e ∧
      (e = .outOfBounds ∨ e = .signedOverflow) := by
  unfold maxValueIterative
  cases hsize : int32 (capacity + 1) with
  | error e => exact ⟨e, rfl, Or.inr (int32_fault _ _ hsize)⟩
  | ok size =>
    have hsz : size = capacity + 1 := by
      unfold int32 at hsize
      split at hsize
      · cases hsize; rfl
      · cases hsize
    have hnew : newArray size = .ok (List.replicate size.toNat 0) := by
      unfold newArray; rw [if_neg (by omega)]
    obtain ⟨e, he, hkind⟩ := foldlM_negative_weight capacity hcap cakes
      (List.replicate size.toNat 0) hint hneg
    refine ⟨e, ?_, hkind⟩
    simp only [bind, Except.bind, hnew, he]

theorem maxValueIterative_nil (capacity : Int) (hcap : 0 ≤ capacity) (hmax : capacity < INT_MAX) :
    maxValueIterative capacity [] = .ok 0 := by
  have hsize : int32 (capacity + 1) = .ok (capacity + 1) :=
    int32_ok _ (by unfold INT_MIN; omega) (by omega)
  have hnew : newArray (capacity + 1) = .ok (List.replicate (capacity + 1).toNat 0) := by
    unfold newArray; rw [if_neg (by omega)]
  have hread : readAt (List.replicate (capacity + 1).toNat 0) capacity = .ok 0 := by
    unfold readAt
    rw [if_neg (by omega)]
    have hlt : capacity.toNat < (capacity + 1).toNat := by omega
    rw [List.getElem?_eq_getElem (by simpa using hlt)]
    simp
  unfold maxValueIterative
  rw [hsize]
  simp only [bind, Except.bind, hnew, List.foldlM, pure, Except.pure, hread]

/-- The examples evaluated on the idealised program give the same results on 32-bit `int` and
`float` ratios: the two greedy functions on the cakes (3,3), (7,14) at capacity 10, the three
functions on the cakes of `main` at capacity 10, and the order `sort` leaves. -/
theorem examples_on_machine_types :
    maxValueGreedyPQueue buildQueue 10 [⟨3, 3⟩, ⟨7, 14⟩] = .ok 17 ∧
      maxValueGreedySort sortCakes 10 [⟨3, 3⟩, ⟨7, 14⟩] = .ok 14 ∧
      maxValueIterative 10 canonicalCakes = .ok 10 ∧
      maxValueGreedyPQueue buildQueue 10 canonicalCakes = .ok 10 ∧
      maxValueGreedySort sortCakes 10 canonicalCakes = .ok 10 ∧
      sortCakes [⟨7, 14⟩, ⟨3, 3⟩] = [⟨3, 3⟩, ⟨7, 14⟩] ∧
      sortCakes canonicalCakes = [⟨6, 6⟩, ⟨5, 5⟩, ⟨3, 3⟩, ⟨2, 2⟩] := by
  decide!

/-- Claim C8 fails: on the negative capacity -1, and on the item of negative weight (-2, 3)
at capacity 10, both greedy functions return the value 0 instead of rejecting the input; the
orders in which the queue and `sort` hold the cakes are a pop order and a sort order. -/
theorem greedy_input_not_rejected :
    IsPopOrder canonicalCakes (buildQueue canonicalCakes) ∧
      IsSortOrder canonicalCakes (sortCakes canonicalCakes) ∧
      maxValueGreedyPQueue buildQueue (-1) canonicalCakes = .ok 0 ∧
      maxValueGreedySort sortCakes (-1) canonicalCakes = .ok 0 ∧
      maxValueGreedyPQueue buildQueue 10 [⟨-2, 3⟩] = .ok 0 ∧
      maxValueGreedySort sortCakes 10 [⟨-2, 3⟩] = .ok 0 := by
  decide!

/-- Claim C8, amended: no knapsack function checks its arguments, and none rejects a negative
capacity or a negative weight. On such an input `maxValueIterative` meets one of three faults,
none of them an invalid-input error of its own: for a capacity below -1 the expression
`new int[capacity + 1]` throws `bad_array_new_length`; for the capacity -1 and upwards the
function accesses a cell outside `max_value` (at capacity -1 it reads `max_value[-1]` at the
latest) or, only for a capacity ≥ 0, overflows an `int`. The last two are undefined behaviour:
the run is not stopped there and may go on to return whatever the cell holds. For every
negative capacity and cakes of non-zero weight both greedy functions return 0, whatever pop
order the queue and sort order `sort` produce. -/
theorem knapsack_input_unchecked (popOrder sort : List Cake → List Cake) (capacity : Int)
    (cakes : List Cake) (hcap : isInt capacity) (hint : ∀ c ∈ cakes, isInt c.weight)
    (h : capacity < 0 ∨ ∃ c ∈ cakes, c.weight < 0) :
    (∃ e, maxValueIterative capacity cakes = .error e ∧
        ((capacity < -1 ∧ e = .badArrayNewLength) ∨
          (-1 ≤ capacity ∧ (e = .outOfBounds ∨ (0 ≤ capacity ∧ e = .signedOverflow))))) ∧
      (capacity < 0 → (∀ c ∈ cakes, c.weight ≠ 0) → IsPopOrder cakes (popOrder cakes) →
        IsSortOrder cakes (sort cakes) →
        maxValueGreedyPQueue popOrder capacity cakes = .ok 0 ∧
          maxValueGreedySort sort capacity cakes = .ok 0) := by
  refine ⟨?_, ?_⟩
  · by_cases h1 : capacity < -1
    · exact ⟨_, maxValueIterative_below_minus_one capacity hcap h1 cakes,
        Or.inl ⟨h1, rfl⟩⟩
    · by_cases h2 : capacity = -1
      · rw [h2]
        exact ⟨_, maxValueIterative_minus_one cakes hint,
          Or.inr ⟨le_refl _, Or.inl rfl⟩⟩
      · have h0 : 0 ≤ capacity := by omega
        rcases h with h | h
        · omega
        · obtain ⟨e, he, hkind⟩ := maxValueIterative_negative_weight capacity h0 cakes hint h
          refine ⟨e, he, Or.inr ⟨by omega, ?_⟩⟩
          rcases hkind with hk | hk
          · exact Or.inl hk
          · exact Or.inr ⟨h0, hk⟩
  · intro hlt _ _ _
    exact ⟨pqLoop_negative capacity hlt _, sortLoop_negative capacity hlt _ _⟩

/-- Claim C8, amended, at capacity -1 with the cake types of `main`. -/
theorem knapsack_input_unchecked_witness :
    isInt (-1) ∧ (∀ c ∈ canonicalCakes, isInt c.weight) ∧
      ((-1 : Int) < 0 ∨ ∃ c ∈ canonicalCakes, c.weight < 0) ∧
      (∃ e, maxValueIterative (-1) canonicalCakes = .error e ∧
        (((-1 : Int) < -1 ∧ e = .badArrayNewLength) ∨
          ((-1 : Int) ≤ -1 ∧ (e = .outOfBounds ∨ ((0 : Int) ≤ -1 ∧ e = .signedOverflow))))) ∧
      ((-1 : Int) < 0 → (∀ c ∈ canonicalCakes, c.weight ≠ 0) →
        IsPopOrder canonicalCakes (buildQueue canonicalCakes) →
        IsSortOrder canonicalCakes (sortCakes canonicalCakes) →
        maxValueGreedyPQueue buildQueue (-1) canonicalCakes = .ok 0 ∧
          maxValueGreedySort sortCakes (-1) canonicalCakes = .ok 0) :=
  ⟨by decide, by decide, Or.inl (by decide),
    knapsack_input_unchecked buildQueue sortCakes (-1) canonicalCakes (by decide) (by decide)
      (Or.inl (by decide))⟩

/-- Claim C12 fails at the largest capacity: for the capacity 2147483647 the number
`capacity + 1` of cells is no `int`, the addition overflows, and `maxValueIterative(capacity, [])`
does not return 0. -/
theorem maxValueIterative_no_cakes_overflow :
    (0 : Int) ≤ 2147483647 ∧ isInt 2147483647 ∧
      maxValueIterative 2147483647 [] = .error .signedOverflow := by
  decide

/-- Claim C12, amended: for every capacity ≥ 0 below `INT_MAX`, the largest `int`,
`maxValueIterative(capacity, [])` returns 0 (the array of `capacity + 1` cells being
allocated). -/
theorem maxValueIterative_no_cakes_int (capacity : Int) (hcap : 0 ≤ capacity)
    (hmax : capacity < INT_MAX) : maxValueIterative capacity [] = .ok 0 :=
  maxValueIterative_nil capacity hcap hmax

/-- Claim C12, amended, at capacity 7. -/
theorem maxValueIterative_no_cakes_int_witness :
    (0 : Int) ≤ 7 ∧ (7 : Int) < INT_MAX ∧ maxValueIterative 7 [] = .ok 0 :=
  ⟨by decide, by decide, maxValueIterative_no_cakes_int 7 (by decide) (by decide)⟩

/-- Claim C15 fails on `float` ratios: the cakes (4141, 4140) and (4142, 4141) have the distinct
ratios 4140/4141 < 4141/4142, but `getRatio` returns the same `float`, 16773165/16777216, for
both. The queue then delivers the cake of the smaller weight and the smaller ratio first, and at
capacity 8282 `maxValueGreedyPQueue` returns 8280, while the pass in descending ratio order is
worth 4141; at capacity 8283 the first pass sets `repeat`, so that a second pass is made. -/
theorem maxValueGreedyPQueue_float_tie :
    CakeThief.getRatio ⟨4141, 4140⟩ < CakeThief.getRatio ⟨4142, 4141⟩ ∧
      getRatio ⟨4141, 4140⟩ = .finite (16773165 / 16777216) ∧
      getRatio ⟨4142, 4141⟩ = .finite (16773165 / 16777216) ∧
      IsPopOrder [⟨4141, 4140⟩, ⟨4142, 4141⟩] (buildQueue [⟨4141, 4140⟩, ⟨4142, 4141⟩]) ∧
      buildQueue [⟨4141, 4140⟩, ⟨4142, 4141⟩] = [⟨4141, 4140⟩, ⟨4142, 4141⟩] ∧
      maxValueGreedyPQueue buildQueue 8282 [⟨4141, 4140⟩, ⟨4142, 4141⟩] = .ok 8280 ∧
      singlePass 8282 [⟨4142, 4141⟩, ⟨4141, 4140⟩] = 4141 ∧
      pqPass (buildQueue [⟨4141, 4140⟩, ⟨4142, 4141⟩]) false 0 8283 (.finite (-1))
        = .ok (true, 8280) := by
  decide!

/-- Claim C15, amended: for a capacity ≥ 0, cakes with positive weights and non-negative values
whose `float` ratios, as `getRatio` computes them, are pairwise distinct, and a pass whose value
fits in an `int`, the queue of `maxValueGreedyPQueue` delivers the cakes in strictly descending
order of their `float` ratios, whatever pop order the library produces; the first pass ends with
`repeat` unset, so that no second pass is made, and the function returns the value of that
pass: each cake `(w, v)` in turn adds `(r div w) * v` and leaves `r mod w`, with `r` starting at
the capacity. (For the empty list the loop body is not run and 0, the value of the pass over no
cake, is returned.) -/
theorem maxValueGreedyPQueue_no_float_ties (popOrder : List Cake → List Cake) (capacity : Int)
    (cakes : List Cake) (horder : IsPopOrder cakes (popOrder cakes)) (hcap : 0 ≤ capacity)
    (hmax : capacity ≤ INT_MAX) (hw : ∀ c ∈ cakes, 0 < c.weight) (hv : ∀ c ∈ cakes, 0 ≤ c.value)
    (hdistinct : cakes.Pairwise (fun a b => floatRatio a ≠ floatRatio b))
    (hfit : singlePass capacity (popOrder cakes) ≤ INT_MAX) :
    (∀ c ∈ cakes, getRatio c = .finite (floatRatio c)) ∧
      (popOrder cakes).Pairwise (fun a b => floatRatio b < floatRatio a) ∧
      pqPass (popOrder cakes) false 0 capacity (.finite (-1))
        = .ok (false, singlePass capacity (popOrder cakes)) ∧
      maxValueGreedyPQueue popOrder capacity cakes
        = .ok (singlePass capacity (popOrder cakes)) := by
  obtain ⟨hperm, hsorted⟩ := horder
  have hwq : ∀ c ∈ popOrder cakes, 0 < c.weight := fun c hc => hw c (hperm.mem_iff.1 hc)
  have hvq : ∀ c ∈ popOrder cakes, 0 ≤ c.value := fun c hc => hv c (hperm.mem_iff.1 hc)
  have hdq : (popOrder cakes).Pairwise (fun a b => floatRatio a ≠ floatRatio b) :=
    (hperm.pairwise_iff (fun {a b} (h : floatRatio a ≠ floatRatio b) => h.symm)).2 hdistinct
  have hdesc : (popOrder cakes).Pairwise (fun a b => floatRatio b < floatRatio a) := by
    refine (hsorted.and hdq).imp_of_mem ?_
    rintro a b ha hb ⟨h1, h2⟩
    exact lt_of_le_of_ne
      ((cakeComparator_false_iff_float a b (ne_of_gt (hwq a ha)) (ne_of_gt (hwq b hb))).1 h1).1
      (Ne.symm h2)
  have hties : (popOrder cakes).Pairwise (fun a b => (getRatio a).eq (getRatio b) = false) := by
    refine hdq.imp_of_mem ?_
    intro a b ha hb h
    rw [getRatio_finite a (ne_of_gt (hwq a ha)), getRatio_finite b (ne_of_gt (hwq b hb))]
    simp [Float32.eq, h]
  have hprev : ∀ c ∈ popOrder cakes, (Float32.finite (-1)).eq (getRatio c) = false := by
    intro c hc
    obtain ⟨q, hq, hfin⟩ := getRatio_nonneg c (hwq c hc) (hvq c hc)
    rw [hfin]
    have hne : ¬ ((-1 : ℚ) = q) := by intro h; rw [← h] at hq; norm_num at hq
    simp [Float32.eq, hne]
  have hpass := pqPass_no_ties_int (popOrder cakes) false 0 capacity (.finite (-1)) hcap hmax
    (le_refl _) hwq hvq (by rw [zero_add]; exact hfit) hprev hties
  rw [zero_add] at hpass
  refine ⟨fun c hc => getRatio_finite c (ne_of_gt (hw c hc)), hdesc, hpass, ?_⟩
  unfold maxValueGreedyPQueue
  cases hq : popOrder cakes with
  | nil => rfl
  | cons c q =>
    rw [hq] at hpass hwq hvq
    have hnn := singlePass_nonneg (c :: q) capacity hcap hwq hvq
    unfold pqLoop
    rw [hpass]
    simp [bind, Except.bind, max_eq_right hnn]

/-- Claim C15, amended, at capacity 10 on the cakes (3,1), (7,14) and (4,2), of ratios 1/3
(rounded to 11184811/33554432), 2 and 1/2, with the queue `buildQueue`. -/
theorem maxValueGreedyPQueue_no_float_ties_witness :
    IsPopOrder [⟨3, 1⟩, ⟨7, 14⟩, ⟨4, 2⟩] (buildQueue [⟨3, 1⟩, ⟨7, 14⟩, ⟨4, 2⟩]) ∧
      (0 : Int) ≤ 10 ∧ (10 : Int) ≤ INT_MAX ∧
      (∀ c ∈ ([⟨3, 1⟩, ⟨7, 14⟩, ⟨4, 2⟩] : List Cake), 0 < c.weight) ∧
      (∀ c ∈ ([⟨3, 1⟩, ⟨7, 14⟩, ⟨4, 2⟩] : List Cake), 0 ≤ c.value) ∧
      ([⟨3, 1⟩, ⟨7, 14⟩, ⟨4, 2⟩] : List Cake).Pairwise
        (fun a b => floatRatio a ≠ floatRatio b) ∧
      singlePass 10 (buildQueue [⟨3, 1⟩, ⟨7, 14⟩, ⟨4, 2⟩]) ≤ INT_MAX ∧
      (∀ c ∈ ([⟨3, 1⟩, ⟨7, 14⟩, ⟨4, 2⟩] : List Cake), getRatio c = .finite (floatRatio c)) ∧
      (buildQueue [⟨3, 1⟩, ⟨7, 14⟩, ⟨4, 2⟩]).Pairwise
        (fun a b => floatRatio b < floatRatio a) ∧
      pqPass (buildQueue [⟨3, 1⟩, ⟨7, 14⟩, ⟨4, 2⟩]) false 0 10 (.finite (-1))
        = .ok (false, singlePass 10 (buildQueue [⟨3, 1⟩, ⟨7, 14⟩, ⟨4, 2⟩])) ∧
      maxValueGreedyPQueue buildQueue 10 [⟨3, 1⟩, ⟨7, 14⟩, ⟨4, 2⟩]
        = .ok (singlePass 10 (buildQueue [⟨3, 1⟩, ⟨7, 14⟩, ⟨4, 2⟩])) :=
  ⟨by decide!, by decide, by decide, by decide, by decide, by decide!, by decide!,
    maxValueGreedyPQueue_no_float_ties buildQueue 10 [⟨3, 1⟩, ⟨7, 14⟩, ⟨4, 2⟩] (by decide!)
      (by decide) (by decide) (by decide) (by decide) (by decide!) (by decide!)⟩

/-- Claim C19 fails where the product is no `int`: at capacity 3 the single cake
(1, 1500000000) gives `(3 / 1) * 1500000000 = 4500000000`, above the largest `int`; the
multiplication in `maxValueGreedySort` overflows and no such value is returned. -/
theorem maxValueGreedySort_one_type_overflow :
    IsSortOrder [⟨1, 1500000000⟩] (sortCakes [⟨1, 1500000000⟩]) ∧
      maxValueGreedySort sortCakes 3 [⟨1, 1500000000⟩] = .error .signedOverflow ∧
      ¬ isInt (3 / 1 * 1500000000) := by
  decide!

/-- Claim C19, amended: for a capacity ≥ 0, cakes with positive weights and non-negative values
such that `(capacity div w) * v` fits in an `int` for every cake `(w, v)`, and whatever sort
order `sort` leaves, `maxValueGreedySort` returns a value that is 0 or `(capacity div w) * v`
for one single cake `(w, v)` of the input: no result combines two cake types. -/
theorem maxValueGreedySort_one_type_int (sort : List Cake → List Cake) (capacity : Int)
    (cakes : List Cake) (hsort : IsSortOrder cakes (sort cakes)) (hcap : 0 ≤ capacity)
    (hmax : capacity ≤ INT_MAX) (hw : ∀ c ∈ cakes, 0 < c.weight) (hv : ∀ c ∈ cakes, 0 ≤ c.value)
    (hfit : ∀ c ∈ cakes, capacity / c.weight * c.value ≤ INT_MAX) :
    ∃ r, maxValueGreedySort sort capacity cakes = .ok r ∧
      (r = 0 ∨ ∃ c ∈ cakes, r = capacity / c.weight * c.value) := by
  obtain ⟨hperm, -⟩ := hsort
  obtain ⟨r, hr, h⟩ := sortLoop_single_int capacity hcap hmax (sort cakes)
    (fun c hc => hw c (hperm.mem_iff.1 hc)) (fun c hc => hv c (hperm.mem_iff.1 hc))
    (fun c hc => hfit c (hperm.mem_iff.1 hc)) (sort cakes).length 0 0 (by omega) (Or.inl rfl)
  refine ⟨r, hr, ?_⟩
  rcases h with h | ⟨c, hc, h⟩
  · exact Or.inl h
  · exact Or.inr ⟨c, hperm.mem_iff.1 hc, h⟩

/-- Claim C19, amended, at capacity 10 on the cakes (3,3) and (7,14) with `sortCakes`. -/
theorem maxValueGreedySort_one_type_int_witness :
    IsSortOrder [⟨3, 3⟩, ⟨7, 14⟩] (sortCakes [⟨3, 3⟩, ⟨7, 14⟩]) ∧
      (0 : Int) ≤ 10 ∧ (10 : Int) ≤ INT_MAX ∧
      (∀ c ∈ ([⟨3, 3⟩, ⟨7, 14⟩] : List Cake), 0 < c.weight) ∧
      (∀ c ∈ ([⟨3, 3⟩, ⟨7, 14⟩] : List Cake), 0 ≤ c.value) ∧
      (∀ c ∈ ([⟨3, 3⟩, ⟨7, 14⟩] : List Cake), 10 / c.weight * c.value ≤ INT_MAX) ∧
      ∃ r, maxValueGreedySort sortCakes 10 [⟨3, 3⟩, ⟨7, 14⟩] = .ok r ∧
        (r = 0 ∨ ∃ c ∈ ([⟨3, 3⟩, ⟨7, 14⟩] : List Cake), r = 10 / c.weight * c.value) :=
  ⟨by decide!, by decide, by decide, by decide, by decide, by decide,
    maxValueGreedySort_one_type_int sortCakes 10 [⟨3, 3⟩, ⟨7, 14⟩] (by decide!) (by decide)
      (by decide) (by decide) (by decide) (by decide)⟩

end CakeThief.Machine

namespace NutsNBolts

open Cpp

theorem swap_self (X : List Int) (a : Int) (Y : List Int) (i : Int) (hi : i = X.length) :
    swap (X ++ a :: Y) i i = .ok (X ++ a :: Y) := by
  simp [swap, readAt_append_cons X a Y i hi, writeAt_append_cons X a Y i a hi, bind,
    Except.bind]

theorem swap_apart (X : List Int) (a : Int) (W : List Int) (b : Int) (Z : List Int)
    (i j : Int) (hi : i = X.length) (hj : j = X.length + 1 + W.length) :
    swap (X ++ a :: (W ++ b :: Z)) i j = .ok (X ++ b :: (W ++ a :: Z)) := by
  have e1 : X ++ a :: (W ++ b :: Z) = (X ++ a :: W) ++ b :: Z := by simp
  have hj' : j = ((X ++ a :: W).length : Int) := by simp [hj]; omega
  have r1 : readAt (X ++ a :: (W ++ b :: Z)) j = .ok b := by
    rw [e1]; exact readAt_append_cons _ _ _ _ hj'
  have r2 : readAt (X ++ a :: (W ++ b :: Z)) i = .ok a := readAt_append_cons _ _ _ _ hi
  have w1 : writeAt (X ++ a :: (W ++ b :: Z)) j a = .ok (X ++ a :: (W ++ a :: Z)) := by
    rw [e1, writeAt_append_cons _ _ _ _ _ hj']; simp
  have w2 : writeAt (X ++ a :: (W ++ a :: Z)) i b = .ok (X ++ b :: (W ++ a :: Z)) :=
    writeAt_append_cons _ _ _ _ _ hi
  simp [swap, r1, r2, w1, w2, bind, Except.bind]

theorem scanUp_spec (pivot : Int) (Z : List Int) :
    ∀ (Q X A : List Int) (fuel : Nat) (start stop : Int), Q ≠ [] → A = X ++ Q ++ Z →
      start = X.length → stop = X.length + Q.length - 1 → Q.length ≤ fuel →
      ∃ Q1 y Y, Q = Q1 ++ y :: Y ∧ (∀ x ∈ Q1, x < pivot) ∧ (Y = [] ∨ pivot ≤ y) ∧
        scanUp A stop pivot fuel start = .ok (X.length + Q1.length) := by
  intro Q
  induction Q with
  | nil => intro X A fuel start stop h; exact absurd rfl h
  | cons q Q ih =>
    intro X A fuel start stop _ hA hstart hstop hfuel
    obtain ⟨f, rfl⟩ : ∃ f, fuel = f + 1 := ⟨fuel - 1, by simp at hfuel; omega⟩
    by_cases hQ : Q = []
    · subst hQ
      refine ⟨[], q, [], rfl, by simp, Or.inl rfl, ?_⟩
      have : ¬ start < stop := by simp at hstop; omega
      rw [scanUp, if_neg this, hstart]; simp
    · have hlen : 0 < Q.length := List.length_pos.2 hQ
      have hlt : start < stop := by simp at hstop; omega
      have hread : readAt A start = .ok q := by
        rw [hA, List.append_assoc]; exact readAt_append_cons _ _ _ _ hstart
      by_cases hq : q < pivot
      · obtain ⟨Q1, y, Y, hQ1, hall, hy, hres⟩ := ih (X ++ [q]) A f (start + 1) stop hQ
          (by simp [hA]) (by simp [hstart]) (by simp at hstop ⊢; omega)
          (by simp at hfuel; omega)
        refine ⟨q :: Q1, y, Y, by simp [hQ1], ?_, hy, ?_⟩
        · intro x hx
          rcases List.mem_cons.1 hx with h1 | h1
          · rw [h1]; exact hq
          · exact hall x h1
        · rw [scanUp, if_pos hlt]
          simp [hread, hq, hres, bind, Except.bind]
          omega
      · refine ⟨[], q, Q, rfl, by simp, Or.inr (by omega), ?_⟩
        rw [scanUp, if_pos hlt]
        simp [hread, hq, bind, Except.bind]
        exact hstart

theorem scanDown_spec (pivot : Int) (X : List Int) :
    ∀ (Q Z A : List Int) (fuel : Nat) (start stop : Int), Q ≠ [] → A = X ++ Q ++ Z →
      start = X.length → stop = X.length + Q.length - 1 → Q.length ≤ fuel →
      ∃ W w Q4, Q = W ++ w :: Q4 ∧ (∀ x ∈ Q4, pivot < x) ∧ (W = [] ∨ w ≤ pivot) ∧
        scanDown A start pivot fuel stop = .ok (X.length + W.length) := by
  intro Q
  induction Q using List.reverseRecOn with
  | nil => intro Z A fuel start stop h; exact absurd rfl h
  | append_singleton Q q ih =>
    intro Z A fuel start stop _ hA hstart hstop hfuel
    obtain ⟨f, rfl⟩ : ∃ f, fuel = f + 1 := ⟨fuel - 1, by simp at hfuel; omega⟩
    by_cases hQ : Q = []
    · subst hQ
      refine ⟨[], q, [], rfl, by simp, Or.inl rfl, ?_⟩
      have : ¬ start < stop := by simp at hstop; omega
      rw [scanDown, if_neg this, hstop]; simp
    · have hlen : 0 < Q.length := List.length_pos.2 hQ
      have hlt : start < stop := by simp at hstop; omega
      have hread : readAt A stop = .ok q := by
        have e : A = (X ++ Q) ++ q :: Z := by simp [hA]
        rw [e]; exact readAt_append_cons _ _ _ _ (by simp at hstop ⊢; omega)
      by_cases hq : q > pivot
      · obtain ⟨W, w, Q4, hW, hall, hw, hres⟩ := ih (q :: Z) A f start (stop - 1) hQ
          (by simp [hA]) hstart (by simp at hstop ⊢; omega) (by simp at hfuel; omega)
        refine ⟨W, w, Q4 ++ [q], by simp [hW], ?_, hw, ?_⟩
        · intro x hx
          rcases List.mem_append.1 hx with h1 | h1
          · exact hall x h1
          · simp at h1; rw [h1]; exact hq
        · rw [scanDown, if_pos hlt]
          simp [hread, hq, hres, bind, Except.bind]
      · refine ⟨Q, q, [], rfl, by simp, Or.inr (by omega), ?_⟩
        rw [scanDown, if_pos hlt]
        simp [hread, hq, bind, Except.bind]
        simp at hstop; omega

theorem count_eq_zero_of_lt (pivot : Int) (L : List Int) (h : ∀ x ∈ L, x < pivot) :
    L.count pivot = 0 :=
  List.count_eq_zero_of_not_mem (fun hm => lt_irrefl _ (h pivot hm))

theorem count_eq_zero_of_gt (pivot : Int) (L : List Int) (h : ∀ x ∈ L, pivot < x) :
    L.count pivot = 0 :=
  List.count_eq_zero_of_not_mem (fun hm => lt_irrefl _ (h pivot hm))

theorem partitionLoop_exit (pivot : Int) (fuel : Nat) (A : List Int) (s p : Int) :
    partitionLoop pivot (fuel + 1) A s s p = .ok (A, s, p) := by
  rw [partitionLoop, if_neg (lt_irrefl _)]

/-- One iteration of the outer loop of `partition` on the window `Q` (between `X` and `Z`)
that holds the pivot exactly once: either the window shrinks to the pivot alone, or its two
ends are swapped and the loop continues on the window without the scanned parts. -/
theorem partitionLoop_step (pivot : Int) (X Q Z A : List Int) (fuel : Nat) (start stop p : Int)
    (hA : A = X ++ Q ++ Z) (hstart : start = X.length)
    (hstop : stop = X.length + Q.length - 1) (hlen : 2 ≤ Q.length)
    (hcount : Q.count pivot = 1) (hfuel : Q.length ≤ fuel) :
    ∃ Q1 Q4, (∀ x ∈ Q1, x < pivot) ∧ (∀ x ∈ Q4, pivot < x) ∧
      ((Q = Q1 ++ pivot :: Q4 ∧
          partitionLoop pivot (fuel + 1) A start stop p =
            partitionLoop pivot fuel A (X.length + Q1.length) (X.length + Q1.length)
              (X.length + Q1.length)) ∨
        (∃ a Q' b p', Q = Q1 ++ a :: (Q' ++ b :: Q4) ∧ pivot ≤ a ∧ b ≤ pivot ∧
          partitionLoop pivot (fuel + 1) A start stop p =
            partitionLoop pivot fuel (X ++ (Q1 ++ b :: (Q' ++ a :: Q4)) ++ Z)
              (X.length + Q1.length) (X.length + Q1.length + 1 + Q'.length) p')) := by
  have hQ : Q ≠ [] := by intro h; rw [h] at hlen; simp at hlen
  have hlt : start < stop := by omega
  obtain ⟨Q1, y, Y, hQ1, hall1, hy, hup⟩ :=
    scanUp_spec pivot Z Q X A fuel start stop hQ hA hstart hstop hfuel
  have hlenQ : Q.length = Q1.length + (Y.length + 1) := by rw [hQ1]; simp
  have hA2 : A = (X ++ Q1) ++ (y :: Y) ++ Z := by rw [hA, hQ1]; simp
  obtain ⟨W, w, Q4, hW, hall4, hw, hdown⟩ :=
    scanDown_spec pivot (X ++ Q1) (y :: Y) Z A fuel (X.length + Q1.length) stop (by simp) hA2
      (by simp) (by simp; omega) (by simp; omega)
  refine ⟨Q1, Q4, hall1, hall4, ?_⟩
  have hc1 := count_eq_zero_of_lt pivot Q1 hall1
  have hc4 := count_eq_zero_of_gt pivot Q4 hall4
  cases W with
  | nil =>
    left
    simp only [List.nil_append, List.cons.injEq] at hW
    obtain ⟨rfl, rfl⟩ := hW
    have hyp : y = pivot := by
      by_contra hne
      rw [hQ1, List.count_append, List.count_cons, hc1, hc4] at hcount
      simp [hne] at hcount
    subst hyp
    refine ⟨hQ1, ?_⟩
    have hA3 : A = (X ++ Q1) ++ y :: (Y ++ Z) := by rw [hA2]; simp
    have hidx : (X.length : Int) + Q1.length = ((X ++ Q1).length : Int) := by simp
    have hswap : swap A (X.length + Q1.length) (X.length + Q1.length) = .ok A := by
      rw [hA3]; exact swap_self _ _ _ _ hidx
    have hread : readAt A (X.length + Q1.length) = .ok y := by
      rw [hA3]; exact readAt_append_cons _ _ _ _ hidx
    rw [partitionLoop, if_pos hlt]
    simp only [List.length_nil, Nat.cast_zero, add_zero] at hdown
    rw [← hidx] at hdown
    simp [hup, hdown, hswap, updateP, hread, bind, Except.bind]
  | cons w0 W' =>
    right
    simp only [List.cons_append, List.cons.injEq] at hW
    obtain ⟨rfl, rfl⟩ := hW
    have hpy : pivot ≤ y := by
      rcases hy with h | h
      · simp at h
      · exact h
    have hwp : w ≤ pivot := by
      rcases hw with h | h
      · simp at h
      · exact h
    have hA3 : A = (X ++ Q1) ++ y :: (W' ++ w :: (Q4 ++ Z)) := by rw [hA2]; simp
    have hidx : (X.length : Int) + Q1.length = ((X ++ Q1).length : Int) := by simp
    have hidx2 : (X.length : Int) + Q1.length + 1 + W'.length
        = ((X ++ Q1).length : Int) + 1 + W'.length := by simp
    have hswap : swap A (X.length + Q1.length) (X.length + Q1.length + 1 + W'.length)
        = .ok ((X ++ Q1) ++ w :: (W' ++ y :: (Q4 ++ Z))) := by
      rw [hA3]; exact swap_apart _ _ _ _ _ _ _ hidx hidx2
    have hr1 : readAt ((X ++ Q1) ++ w :: (W' ++ y :: (Q4 ++ Z))) (X.length + Q1.length)
        = .ok w := readAt_append_cons _ _ _ _ hidx
    have hr2 : readAt ((X ++ Q1) ++ w :: (W' ++ y :: (Q4 ++ Z)))
        (X.length + Q1.length + 1 + W'.length) = .ok y := by
      have e : (X ++ Q1) ++ w :: (W' ++ y :: (Q4 ++ Z))
          = ((X ++ Q1) ++ w :: W') ++ y :: (Q4 ++ Z) := by simp
      rw [e]; exact readAt_append_cons _ _ _ _ (by simp; omega)
    have hupd : ∃ p', updateP ((X ++ Q1) ++ w :: (W' ++ y :: (Q4 ++ Z)))
        (X.length + Q1.length) (X.length + Q1.length + 1 + W'.length) pivot p = .ok p' := by
      unfold updateP
      simp only [hr1, hr2, bind, Except.bind]
      by_cases h1 : w = pivot
      · exact ⟨X.length + Q1.length, by simp [h1]⟩
      · by_cases h2 : y = pivot
        · exact ⟨X.length + Q1.length + 1 + W'.length, by simp [h1, h2]⟩
        · exact ⟨p, by simp [h1, h2]⟩
    obtain ⟨p', hp'⟩ := hupd
    refine ⟨y, W', w, p', by rw [hQ1], hpy, hwp, ?_⟩
    have hdown' : scanDown A (X.length + Q1.length) pivot fuel stop
        = .ok (X.length + Q1.length + 1 + W'.length) := by
      rw [hdown]; simp; omega
    have hle : (X.length : Int) + Q1.length ≤ X.length + Q1.length + 1 + W'.length := by omega
    have e : X ++ (Q1 ++ w :: (W' ++ y :: Q4)) ++ Z
        = (X ++ Q1) ++ w :: (W' ++ y :: (Q4 ++ Z)) := by simp
    simp only [List.append_assoc] at hp'
    rw [partitionLoop, if_pos hlt]
    simp [hup, hdown', hle, hswap, hp', bind, Except.bind]

theorem perm_swap_ends (a b : Int) (Q' Q4 : List Int) :
    (a :: (Q' ++ b :: Q4)).Perm ((b :: (Q' ++ [a])) ++ Q4) := by
  rw [List.perm_iff_count]
  intro x
  simp only [List.count_cons, List.count_append, List.count_nil]
  omega

/-- The outer loop of `partition`, from a window `Q` of at least two cells holding the pivot
exactly once, ends with the window partitioned around the pivot and with `end` and `p` at the
pivot. The bound `n` counts twice the window length, plus one when the ends of the window have
not just been swapped. -/
theorem partitionLoop_spec (pivot : Int) :
    ∀ (n : Nat) (X Q Z A : List Int) (fuel : Nat) (start stop p : Int),
      A = X ++ Q ++ Z → start = X.length → stop = X.length + Q.length - 1 →
      2 ≤ Q.length → Q.count pivot = 1 →
      (((∃ b Q0 a, Q = b :: (Q0 ++ [a]) ∧ b ≤ pivot ∧ pivot ≤ a) ∧ 2 * Q.length ≤ n) ∨
        2 * Q.length + 1 ≤ n) →
      n + 2 ≤ fuel →
      ∃ P T, Q.Perm (P ++ pivot :: T) ∧ (∀ x ∈ P, x < pivot) ∧ (∀ x ∈ T, pivot < x) ∧
        partitionLoop pivot fuel A start stop p =
          .ok (X ++ (P ++ pivot :: T) ++ Z, X.length + P.length, X.length + P.length) := by
  intro n
  induction n with
  | zero =>
    intro X Q Z A fuel start stop p _ _ _ hlen _ hn _
    exfalso
    rcases hn with ⟨-, h⟩ | h <;> omega
  | succ m ih =>
    intro X Q Z A fuel start stop p hA hstart hstop hlen hcount hn hfuel
    obtain ⟨f, rfl⟩ : ∃ f, fuel = f + 1 := ⟨fuel - 1, by omega⟩
    have hf : Q.length ≤ f := by rcases hn with ⟨-, h⟩ | h <;> omega
    obtain ⟨Q1, Q4, hall1, hall4, halt⟩ :=
      partitionLoop_step pivot X Q Z A f start stop p hA hstart hstop hlen hcount hf
    have hc1 := count_eq_zero_of_lt pivot Q1 hall1
    have hc4 := count_eq_zero_of_gt pivot Q4 hall4
    rcases halt with ⟨hQ, hloop⟩ | ⟨a, Q', b, p', hQ, hpa, hbp, hloop⟩
    · obtain ⟨g, rfl⟩ : ∃ g, f = g + 1 := ⟨f - 1, by omega⟩
      refine ⟨Q1, Q4, by rw [hQ], hall1, hall4, ?_⟩
      rw [hloop, partitionLoop_exit, hA, hQ]
    · have hQlen : Q.length = Q1.length + (Q'.length + 2) + Q4.length := by
        rw [hQ]; simp; omega
      have hcn : (b :: (Q' ++ [a])).count pivot = 1 := by
        rw [hQ] at hcount
        simp only [List.count_cons, List.count_append, List.count_nil, hc1, hc4] at hcount ⊢
        omega
      have hmeasure : 2 * (b :: (Q' ++ [a])).length ≤ m := by
        have hl : (b :: (Q' ++ [a])).length = Q'.length + 2 := by simp
        rcases hn with ⟨⟨b0, Q0, a0, hQ0, hb0, ha0⟩, h⟩ | h
        · have hne : 1 ≤ Q1.length + Q4.length := by
            by_contra hcon
            have h1 : Q1 = [] := List.length_eq_zero.1 (by omega)
            have h4 : Q4 = [] := List.length_eq_zero.1 (by omega)
            subst h1; subst h4
            rw [hQ] at hQ0
            simp only [List.nil_append, List.cons.injEq] at hQ0
            obtain ⟨hab0, hrest⟩ := hQ0
            have hlast := List.append_inj' hrest rfl
            simp only [List.cons.injEq, and_true] at hlast
            obtain ⟨-, hba0⟩ := hlast
            have ha : a = pivot := by omega
            have hb : b = pivot := by omega
            rw [ha, hb] at hcn
            simp [List.count_cons, List.count_append] at hcn
          omega
        · omega
      obtain ⟨P, T, hperm, hallP, hallT, hres⟩ :=
        ih (X ++ Q1) (b :: (Q' ++ [a])) (Q4 ++ Z) (X ++ (Q1 ++ b :: (Q' ++ a :: Q4)) ++ Z) f
          (X.length + Q1.length) (X.length + Q1.length + 1 + Q'.length) p'
          (by simp) (by simp) (by simp; omega) (by simp) hcn
          (Or.inl ⟨⟨b, Q', a, rfl, hbp, hpa⟩, hmeasure⟩) (by omega)
      refine ⟨Q1 ++ P, T ++ Q4, ?_, ?_, ?_, ?_⟩
      · rw [hQ]
        have h1 : (Q1 ++ a :: (Q' ++ b :: Q4)).Perm (Q1 ++ ((b :: (Q' ++ [a])) ++ Q4)) :=
          List.Perm.append_left Q1 (perm_swap_ends a b Q' Q4)
        have h2 : (Q1 ++ ((b :: (Q' ++ [a])) ++ Q4)).Perm (Q1 ++ ((P ++ pivot :: T) ++ Q4)) :=
          List.Perm.append_left Q1 (List.Perm.append_right Q4 hperm)
        have e : Q1 ++ ((P ++ pivot :: T) ++ Q4) = Q1 ++ P ++ pivot :: (T ++ Q4) := by simp
        rw [← e]
        exact h1.trans h2
      · intro x hx
        rcases List.mem_append.1 hx with h | h
        · exact hall1 x h
        · exact hallP x h
      · intro x hx
        rcases List.mem_append.1 hx with h | h
        · exact hallT x h
        · exact hall4 x h
      · rw [hloop, hres]
        simp
        omega

/-- Specification of `partition` on the range `M` between `L` and `R`, when `M` has at least
two cells and holds the pivot exactly once: with enough fuel the call returns, the range is
rearranged into smaller values, the pivot, larger values, the cells outside the range are
untouched, and the returned index is the position of the pivot. -/
theorem partition_spec (pivot : Int) (L M R : List Int) (fuel : Nat) (start stop : Int)
    (hstart : start = L.length) (hstop : stop = L.length + M.length - 1)
    (hlen : 2 ≤ M.length) (hcount : M.count pivot = 1) (hfuel : 2 * M.length + 3 ≤ fuel) :
    ∃ P T, M.Perm (P ++ pivot :: T) ∧ (∀ x ∈ P, x < pivot) ∧ (∀ x ∈ T, pivot < x) ∧
      partition fuel (L ++ M ++ R) start stop pivot =
        .ok (L ++ (P ++ pivot :: T) ++ R, L.length + P.length) := by
  obtain ⟨P, T, hperm, hP, hT, hres⟩ :=
    partitionLoop_spec pivot (2 * M.length + 1) L M R (L ++ M ++ R) fuel start stop (-1) rfl
      hstart hstop hlen hcount (Or.inr (le_refl _)) hfuel
  refine ⟨P, T, hperm, hP, hT, ?_⟩
  have h0 : ¬ ((L.length : Int) + P.length < 0) := by omega
  unfold partition
  rw [hres]
  simp [bind, Except.bind, h0]

theorem readAt_mid (L M R : List Int) (i : Int) (h1 : (L.length : Int) ≤ i)
    (h2 : i < L.length + M.length) : ∃ x ∈ M, readAt (L ++ M ++ R) i = .ok x := by
  obtain ⟨k, hk⟩ : ∃ k : Nat, i = L.length + k := ⟨(i - L.length).toNat, by omega⟩
  have hkM : k < M.length := by omega
  obtain ⟨M1, x, M2, hM, hlen⟩ : ∃ M1 x M2, M = M1 ++ x :: M2 ∧ M1.length = k := by
    refine ⟨M.take k, M[k], M.drop (k + 1), ?_, ?_⟩
    · simp
    · simp; omega
  refine ⟨x, by rw [hM]; simp, ?_⟩
  have e : L ++ M ++ R = (L ++ M1) ++ x :: (M2 ++ R) := by rw [hM]; simp
  rw [e]
  exact readAt_append_cons _ _ _ _ (by simp; omega)

theorem filter_lt_partitioned (pivot : Int) (P T : List Int) (hP : ∀ x ∈ P, x < pivot)
    (hT : ∀ x ∈ T, pivot < x) : (P ++ pivot :: T).filter (fun x => decide (x < pivot)) = P := by
  rw [List.filter_append, List.filter_cons]
  have h1 : P.filter (fun x => decide (x < pivot)) = P :=
    List.filter_eq_self.2 (fun x hx => by simpa using hP x hx)
  have h2 : T.filter (fun x => decide (x < pivot)) = [] :=
    List.filter_eq_nil_iff.2 (fun x hx => by have := hT x hx; simp; omega)
  simp [h1, h2]

theorem filter_gt_partitioned (pivot : Int) (P T : List Int) (hP : ∀ x ∈ P, x < pivot)
    (hT : ∀ x ∈ T, pivot < x) : (P ++ pivot :: T).filter (fun x => decide (pivot < x)) = T := by
  rw [List.filter_append, List.filter_cons]
  have h1 : T.filter (fun x => decide (pivot < x)) = T :=
    List.filter_eq_self.2 (fun x hx => by simpa using hT x hx)
  have h2 : P.filter (fun x => decide (pivot < x)) = [] :=
    List.filter_eq_nil_iff.2 (fun x hx => by have := hP x hx; simp; omega)
  simp [h1, h2]

/-- Specification of the recursive worker on a range where nuts and bolts hold the same
pairwise distinct values: with enough fuel it returns, and both ranges then hold those values
in strictly ascending order, everything outside the range being untouched. -/
theorem sortNutsBoltsRange_spec :
    ∀ (n fuel : Nat) (Ln Mn Rn Lb Mb Rb : List Int) (start stop : Int),
      Mn.length ≤ n → start = Ln.length → Lb.length = Ln.length →
      stop = Ln.length + Mn.length - 1 → Mn.Perm Mb → Mn.Nodup → 3 * n + 4 ≤ fuel →
      ∃ S, S.Perm Mn ∧ S.Sorted (· < ·) ∧
        sortNutsBoltsRange fuel (Ln ++ Mn ++ Rn) (Lb ++ Mb ++ Rb) start stop =
          .returned (Ln ++ S ++ Rn) (Lb ++ S ++ Rb) := by
  intro n
  induction n using Nat.strong_induction_on with
  | _ n ih =>
    intro fuel Ln Mn Rn Lb Mb Rb start stop hn hstart hLb hstop hperm hnodup hfuel
    obtain ⟨f, rfl⟩ : ∃ f, fuel = f + 1 := ⟨fuel - 1, by omega⟩
    have hlenMb : Mb.length = Mn.length := hperm.length_eq.symm
    by_cases hsmall : Mn.length < 2
    · have hMb : Mb = Mn := by
        match Mn, hperm, hsmall with
        | [], hp, _ => exact (List.nil_perm.1 hp)
        | [x], hp, _ => exact (List.perm_singleton.1 hp.symm)
        | _ :: _ :: _, _, h => exfalso; simp only [List.length_cons] at h; omega
      have hsorted : Mn.Sorted (· < ·) := by
        match Mn, hsmall with
        | [], _ => exact List.sorted_nil
        | [x], _ => exact List.sorted_singleton x
        | _ :: _ :: _, h => exfalso; simp only [List.length_cons] at h; omega
      refine ⟨Mn, List.Perm.refl _, hsorted, ?_⟩
      have hcond : stop - start + 1 < 2 := by omega
      rw [sortNutsBoltsRange, if_pos hcond, hMb]
    · have hlen2 : 2 ≤ Mn.length := by omega
      have hcond : ¬ stop - start + 1 < 2 := by omega
      -- the pivot bolt
      have hmid : (start + stop).tdiv 2 = (start + stop) / 2 :=
        Int.tdiv_eq_ediv (by omega) (by omega)
      obtain ⟨pivot, hpivMb, hreadb⟩ := readAt_mid Lb Mb Rb ((start + stop).tdiv 2)
        (by rw [hmid]; omega) (by rw [hmid]; omega)
      have hpivMn : pivot ∈ Mn := hperm.mem_iff.2 hpivMb
      have hcountn : Mn.count pivot = 1 := List.count_eq_one_of_mem hnodup hpivMn
      have hcountb : Mb.count pivot = 1 := by rw [← hperm.count_eq]; exact hcountn
      -- partition of the nuts around the bolt
      obtain ⟨N1, N2, hpermN, hN1, hN2, hpartn⟩ := partition_spec pivot Ln Mn Rn f start stop
        hstart hstop hlen2 hcountn (by omega)
      have hreadn : readAt (Ln ++ (N1 ++ pivot :: N2) ++ Rn) (Ln.length + N1.length)
          = .ok pivot := by
        have e : Ln ++ (N1 ++ pivot :: N2) ++ Rn = (Ln ++ N1) ++ pivot :: (N2 ++ Rn) := by simp
        rw [e]; exact readAt_append_cons _ _ _ _ (by simp)
      -- partition of the bolts around the matching nut
      obtain ⟨B1, B2, hpermB, hB1, hB2, hpartb⟩ := partition_spec pivot Lb Mb Rb f start stop
        (by omega) (by omega) (by omega) hcountb (by omega)
      have hNB : (N1 ++ pivot :: N2).Perm (B1 ++ pivot :: B2) :=
        hpermN.symm.trans (hperm.trans hpermB)
      have h1 : N1.Perm B1 := by
        have := hNB.filter (fun x => decide (x < pivot))
        rwa [filter_lt_partitioned pivot N1 N2 hN1 hN2,
          filter_lt_partitioned pivot B1 B2 hB1 hB2] at this
      have h2 : N2.Perm B2 := by
        have := hNB.filter (fun x => decide (pivot < x))
        rwa [filter_gt_partitioned pivot N1 N2 hN1 hN2,
          filter_gt_partitioned pivot B1 B2 hB1 hB2] at this
      have hlenN : Mn.length = N1.length + (N2.length + 1) := by
        rw [hpermN.length_eq]; simp
      have hnodupN : (N1 ++ pivot :: N2).Nodup := hpermN.nodup_iff.1 hnodup
      have hnd1 : N1.Nodup := (List.nodup_append.1 hnodupN).1
      have hnd2 : N2.Nodup := ((List.nodup_append.1 hnodupN).2.1).of_cons
      have hnb : (Ln.length : Int) + N1.length = Lb.length + B1.length := by
        rw [hLb, h1.length_eq]
      -- the too-small pile
      obtain ⟨S1, hS1p, hS1s, hrec1⟩ := ih N1.length (by omega) f Ln N1 (pivot :: N2 ++ Rn) Lb B1
        (pivot :: B2 ++ Rb) start (Ln.length + N1.length - 1) (le_refl _) hstart hLb rfl h1
        hnd1 (by omega)
      -- the too-large pile
      obtain ⟨S2, hS2p, hS2s, hrec2⟩ := ih N2.length (by omega) f (Ln ++ S1 ++ [pivot]) N2 Rn
        (Lb ++ S1 ++ [pivot]) B2 Rb (Ln.length + N1.length + 1) stop (le_refl _)
        (by simp [hS1p.length_eq]; omega) (by simp [hLb])
        (by simp [hS1p.length_eq]; omega) h2 hnd2 (by omega)
      refine ⟨S1 ++ pivot :: S2, ?_, ?_, ?_⟩
      · exact ((hS1p.append (hS2p.cons pivot))).trans hpermN.symm
      · rw [List.Sorted, List.pairwise_append]
        refine ⟨hS1s, ?_, ?_⟩
        · rw [List.pairwise_cons]
          exact ⟨fun x hx => hN2 x (hS2p.mem_iff.1 hx), hS2s⟩
        · intro x hx y hy
          have hxp : x < pivot := hN1 x (hS1p.mem_iff.1 hx)
          rcases List.mem_cons.1 hy with h | h
          · rw [h]; exact hxp
          · exact lt_trans hxp (hN2 y (hS2p.mem_iff.1 h))
      · have e1 : Ln ++ (N1 ++ pivot :: N2) ++ Rn = Ln ++ N1 ++ (pivot :: N2 ++ Rn) := by simp
        have e2 : Lb ++ (B1 ++ pivot :: B2) ++ Rb = Lb ++ B1 ++ (pivot :: B2 ++ Rb) := by simp
        have e3 : Ln ++ S1 ++ (pivot :: N2 ++ Rn) = Ln ++ S1 ++ [pivot] ++ N2 ++ Rn := by simp
        have e4 : Lb ++ S1 ++ (pivot :: B2 ++ Rb) = Lb ++ S1 ++ [pivot] ++ B2 ++ Rb := by simp
        have e5 : Ln ++ S1 ++ [pivot] ++ S2 ++ Rn = Ln ++ (S1 ++ pivot :: S2) ++ Rn := by simp
        have e6 : Lb ++ S1 ++ [pivot] ++ S2 ++ Rb = Lb ++ (S1 ++ pivot :: S2) ++ Rb := by simp
        have hthrow : ¬ ((Ln.length : Int) + N1.length < 0 ∨
            (Ln.length : Int) + N1.length ≠ Lb.length + B1.length) := by
          rw [not_or]; exact ⟨by omega, not_not.2 hnb⟩
        rw [sortNutsBoltsRange, if_neg hcond, hreadb]
        simp only [hpartn, hreadn, hpartb]
        rw [if_neg hthrow, e1, e2, hrec1]
        simp only []
        rw [e3, e4, hrec2, e5, e6]

/-- With enough fuel, for nuts and bolts holding the same pairwise distinct values,
`sortNutsBolts` returns and leaves in both vectors those values in strictly ascending order,
whatever permutation the shuffle produced. -/
theorem sortNutsBolts_sorted (shuffle : List Int → List Int) (fuel : Nat)
    (nuts bolts : List Int) (hshuffle : (shuffle bolts).Perm bolts) (hnodup : nuts.Nodup)
    (hperm : nuts.Perm bolts) (hfuel : 3 * nuts.length + 4 ≤ fuel) :
    ∃ S, S.Perm nuts ∧ S.Sorted (· < ·) ∧
      sortNutsBolts shuffle fuel nuts bolts = .returned S S := by
  obtain ⟨S, hS, hsorted, hres⟩ := sortNutsBoltsRange_spec nuts.length fuel [] nuts []
    [] (shuffle bolts) [] 0 ((nuts.length : Int) - 1) (le_refl _) (by simp) rfl (by simp)
    (hperm.trans hshuffle.symm) hnodup hfuel
  refine ⟨S, hS, hsorted, ?_⟩
  unfold sortNutsBolts
  rw [if_neg (not_not.2 hperm.length_eq)]
  simpa using hres

/-- The partition loop cannot leave a window whose two ends both hold the pivot: the scans
do not move, the swap exchanges two equal values, and the loop condition still holds. -/
theorem partitionLoop_stuck (pivot start stop : Int) (hlt : start < stop) :
    ∀ (fuel : Nat) (A : List Int) (p : Int), readAt A start = .ok pivot →
      readAt A stop = .ok pivot →
      partitionLoop pivot fuel A start stop p = .error .outOfFuel := by
  intro fuel
  induction fuel with
  | zero => intro A p _ _; rfl
  | succ f ih =>
    intro A p hs he
    rw [partitionLoop, if_pos hlt]
    cases f with
    | zero => simp [scanUp, bind, Except.bind]
    | succ g =>
      have hup : scanUp A stop pivot (g + 1) start = .ok start := by
        rw [scanUp, if_pos hlt]; simp [hs, bind, Except.bind]
      have hdown : scanDown A start pivot (g + 1) stop = .ok stop := by
        rw [scanDown, if_pos hlt]; simp [he, bind, Except.bind]
      have h0s : 0 ≤ start := ((readAt_eq_ok_iff A start pivot).1 hs).1
      have h0e : 0 ≤ stop := by omega
      obtain ⟨A1, hA1⟩ := writeAt_ok A stop pivot pivot he
      have hs1 : readAt A1 start = .ok pivot := by
        rw [readAt_writeAt A A1 stop pivot start hA1 h0s, if_neg (by omega)]; exact hs
      have he1 : readAt A1 stop = .ok pivot := by
        rw [readAt_writeAt A A1 stop pivot stop hA1 h0e, if_pos rfl]
      obtain ⟨A2, hA2⟩ := writeAt_ok A1 start pivot pivot hs1
      have hs2 : readAt A2 start = .ok pivot := by
        rw [readAt_writeAt A1 A2 start pivot start hA2 h0s, if_pos rfl]
      have he2 : readAt A2 stop = .ok pivot := by
        rw [readAt_writeAt A1 A2 start pivot stop hA2 h0e, if_neg (by omega)]; exact he1
      have hswap : swap A start stop = .ok A2 := by
        simp [swap, hs, he, hA1, hA2, bind, Except.bind]
      have hupd : updateP A2 start stop pivot p = .ok start := by
        simp [updateP, hs2, bind, Except.bind]
      have hle : start ≤ stop := by omega
      simp only [hup, hdown, bind, Except.bind, hle, if_true, hswap, hupd]
      exact ih A2 start hs2 he2

theorem partitionLoop_stuck_011 (fuel : Nat) (p : Int) :
    partitionLoop 1 fuel [0, 1, 1] 1 2 p = .error .outOfFuel :=
  partitionLoop_stuck 1 1 2 (by decide) fuel [0, 1, 1] p (by decide) (by decide)

theorem partition_011_whole (fuel : Nat) :
    partition fuel [0, 1, 1] 0 2 1 = .error .outOfFuel := by
  have hloop : partitionLoop 1 fuel [0, 1, 1] 0 2 (-1) = .error .outOfFuel := by
    rcases Nat.lt_or_ge fuel 4 with h | h
    · interval_cases fuel <;> rfl
    · obtain ⟨k, rfl⟩ : ∃ k, fuel = k + 4 := ⟨fuel - 4, by omega⟩
      have hup : scanUp [0, 1, 1] 2 1 (k + 3) 0 = .ok 1 := rfl
      have hdown : scanDown [0, 1, 1] 1 1 (k + 3) 2 = .ok 2 := rfl
      have hswap : swap [0, 1, 1] 1 2 = .ok [0, 1, 1] := rfl
      have hupd : updateP [0, 1, 1] 1 2 1 (-1) = .ok 1 := rfl
      rw [partitionLoop, if_pos (by decide)]
      simp only [hup, hdown, bind, Except.bind]
      rw [if_pos (by decide)]
      simp only [hswap, hupd]
      exact partitionLoop_stuck_011 _ _
  unfold partition
  rw [hloop]
  rfl

theorem partition_011_tail (fuel : Nat) :
    partition fuel [0, 1, 1] 1 2 1 = .error .outOfFuel := by
  unfold partition
  rw [partitionLoop_stuck_011]
  rfl

theorem sortNutsBoltsRange_011_011 (fuel : Nat) :
    sortNutsBoltsRange fuel [0, 1, 1] [0, 1, 1] 0 2 = .fault .outOfFuel := by
  cases fuel with
  | zero => rfl
  | succ f =>
    have hread : readAt [0, 1, 1] (((0 : Int) + 2).tdiv 2) = .ok 1 := rfl
    rw [sortNutsBoltsRange, if_neg (by decide), hread]
    simp only [partition_011_whole]

theorem sortNutsBoltsRange_011_110 (fuel : Nat) :
    sortNutsBoltsRange fuel [0, 1, 1] [1, 1, 0] 0 2 = .fault .outOfFuel := by
  cases fuel with
  | zero => rfl
  | succ f =>
    have hread : readAt [1, 1, 0] (((0 : Int) + 2).tdiv 2) = .ok 1 := rfl
    rw [sortNutsBoltsRange, if_neg (by decide), hread]
    simp only [partition_011_whole]

theorem sortNutsBoltsRange_011_tail (fuel : Nat) :
    sortNutsBoltsRange fuel [0, 1, 1] [0, 1, 1] 1 2 = .fault .outOfFuel := by
  cases fuel with
  | zero => rfl
  | succ f =>
    have hread : readAt [0, 1, 1] (((1 : Int) + 2).tdiv 2) = .ok 1 := rfl
    rw [sortNutsBoltsRange, if_neg (by decide), hread]
    simp only [partition_011_tail]

theorem sortNutsBoltsRange_011_101 (fuel : Nat) :
    sortNutsBoltsRange fuel [0, 1, 1] [1, 0, 1] 0 2 = .fault .outOfFuel := by
  rcases Nat.lt_or_ge fuel 8 with h | h
  · interval_cases fuel <;> rfl
  · obtain ⟨k, rfl⟩ : ∃ k, fuel = k + 8 := ⟨fuel - 8, by omega⟩
    have hread : readAt [1, 0, 1] (((0 : Int) + 2).tdiv 2) = .ok 0 := rfl
    have hp1 : partition (k + 7) [0, 1, 1] 0 2 0 = .ok ([0, 1, 1], 0) := rfl
    have hread2 : readAt [0, 1, 1] 0 = .ok 0 := rfl
    have hp2 : partition (k + 7) [1, 0, 1] 0 2 0 = .ok ([0, 1, 1], 0) := rfl
    have hrec : sortNutsBoltsRange (k + 7) [0, 1, 1] [0, 1, 1] 0 (0 - 1)
        = .returned [0, 1, 1] [0, 1, 1] := rfl
    rw [sortNutsBoltsRange, if_neg (by decide), hread]
    simp only [hp1, hread2, hp2]
    rw [if_neg (by decide)]
    simp only [hrec]
    exact sortNutsBoltsRange_011_tail _

/-- Claim C2: for nuts and bolts that are two permutations of a list of pairwise distinct
integers, for every permutation the shuffle of the bolts may produce and every sufficient
fuel, `sortNutsBolts` returns normally, raising no error, and afterwards `nuts[i] == bolts[i]`
at every index `i` below the common length. -/
theorem sortNutsBolts_matches (shuffle : List Int → List Int)
    (hshuffle : ∀ l, (shuffle l).Perm l) (l nuts bolts : List Int) (hl : l.Nodup)
    (hnuts : nuts.Perm l) (hbolts : bolts.Perm l) (fuel : Nat)
    (hfuel : 3 * nuts.length + 4 ≤ fuel) :
    ∃ nuts' bolts', sortNutsBolts shuffle fuel nuts bolts = .returned nuts' bolts' ∧
      nuts'.length = nuts.length ∧ bolts'.length = bolts.length ∧
      ∀ i, i < nuts.length → ∃ x, nuts'[i]? = some x ∧ bolts'[i]? = some x := by
  obtain ⟨S, hS, -, hres⟩ := sortNutsBolts_sorted shuffle fuel nuts bolts (hshuffle bolts)
    (hnuts.nodup_iff.2 hl) (hnuts.trans hbolts.symm) hfuel
  refine ⟨S, S, hres, hS.length_eq, ?_, ?_⟩
  · rw [hS.length_eq, hnuts.length_eq, hbolts.length_eq]
  · intro i hi
    have hi' : i < S.length := by rw [hS.length_eq]; exact hi
    exact ⟨S[i], List.getElem?_eq_getElem hi', List.getElem?_eq_getElem hi'⟩

/-- Claim C2 on two permutations of 0..3, the shuffle reversing the bolts. -/
theorem sortNutsBolts_matches_witness :
    (∀ l : List Int, (List.reverse l).Perm l) ∧ ([0, 1, 2, 3] : List Int).Nodup ∧
      ([3, 1, 2, 0] : List Int).Perm [0, 1, 2, 3] ∧
      ([0, 3, 1, 2] : List Int).Perm [0, 1, 2, 3] ∧
      3 * ([3, 1, 2, 0] : List Int).length + 4 ≤ 16 ∧
      ∃ nuts' bolts',
        sortNutsBolts List.reverse 16 [3, 1, 2, 0] [0, 3, 1, 2] = .returned nuts' bolts' ∧
        nuts'.length = ([3, 1, 2, 0] : List Int).length ∧
        bolts'.length = ([0, 3, 1, 2] : List Int).length ∧
        ∀ i, i < ([3, 1, 2, 0] : List Int).length →
          ∃ x, nuts'[i]? = some x ∧ bolts'[i]? = some x :=
  ⟨List.reverse_perm, by decide, by decide, by decide, by decide,
    sortNutsBolts_matches List.reverse List.reverse_perm [0, 1, 2, 3] [3, 1, 2, 0]
      [0, 3, 1, 2] (by decide) (by decide) (by decide) 16 (by decide)⟩

/-- Claim C4: for nuts and bolts that are two permutations of a list of pairwise distinct
integers, after `sortNutsBolts` each vector is a reordering of its own input and is in
strictly ascending order; the final contents are the same for every other outcome of the
shuffle (and every other sufficient fuel). -/
theorem sortNutsBolts_ascending (shuffle : List Int → List Int)
    (hshuffle : ∀ l, (shuffle l).Perm l) (l nuts bolts : List Int) (hl : l.Nodup)
    (hnuts : nuts.Perm l) (hbolts : bolts.Perm l) (fuel : Nat)
    (hfuel : 3 * nuts.length + 4 ≤ fuel) :
    ∃ nuts' bolts', sortNutsBolts shuffle fuel nuts bolts = .returned nuts' bolts' ∧
      nuts'.Perm nuts ∧ bolts'.Perm bolts ∧
      nuts'.Sorted (· < ·) ∧ bolts'.Sorted (· < ·) ∧
      ∀ (shuffle2 : List Int → List Int) (fuel2 : Nat), (∀ l, (shuffle2 l).Perm l) →
        3 * nuts.length + 4 ≤ fuel2 →
        sortNutsBolts shuffle2 fuel2 nuts bolts = .returned nuts' bolts' := by
  have hnodup : nuts.Nodup := hnuts.nodup_iff.2 hl
  have hnb : nuts.Perm bolts := hnuts.trans hbolts.symm
  obtain ⟨S, hS, hsorted, hres⟩ :=
    sortNutsBolts_sorted shuffle fuel nuts bolts (hshuffle bolts) hnodup hnb hfuel
  refine ⟨S, S, hres, hS, hS.trans hnb, hsorted, hsorted, ?_⟩
  intro shuffle2 fuel2 hshuffle2 hfuel2
  obtain ⟨S2, hS2, hsorted2, hres2⟩ :=
    sortNutsBolts_sorted shuffle2 fuel2 nuts bolts (hshuffle2 bolts) hnodup hnb hfuel2
  have heq : S2 = S := List.eq_of_perm_of_sorted (hS2.trans hS.symm) hsorted2 hsorted
  rw [hres2, heq]

/-- Claim C4 on two permutations of 0..3, the shuffle reversing the bolts. -/
theorem sortNutsBolts_ascending_witness :
    (∀ l : List Int, (List.reverse l).Perm l) ∧ ([0, 1, 2, 3] : List Int).Nodup ∧
      ([3, 1, 2, 0] : List Int).Perm [0, 1, 2, 3] ∧
      ([0, 3, 1, 2] : List Int).Perm [0, 1, 2, 3] ∧
      3 * ([3, 1, 2, 0] : List Int).length + 4 ≤ 16 ∧
      ∃ nuts' bolts',
        sortNutsBolts List.reverse 16 [3, 1, 2, 0] [0, 3, 1, 2] = .returned nuts' bolts' ∧
        nuts'.Perm [3, 1, 2, 0] ∧ bolts'.Perm [0, 3, 1, 2] ∧
        nuts'.Sorted (· < ·) ∧ bolts'.Sorted (· < ·) ∧
        ∀ (shuffle2 : List Int → List Int) (fuel2 : Nat), (∀ l, (shuffle2 l).Perm l) →
          3 * ([3, 1, 2, 0] : List Int).length + 4 ≤ fuel2 →
          sortNutsBolts shuffle2 fuel2 [3, 1, 2, 0] [0, 3, 1, 2] = .returned nuts' bolts' :=
  ⟨List.reverse_perm, by decide, by decide, by decide, by decide,
    sortNutsBolts_ascending List.reverse List.reverse_perm [0, 1, 2, 3] [3, 1, 2, 0]
      [0, 3, 1, 2] (by decide) (by decide) (by decide) 16 (by decide)⟩

/-- Claim C5, evaluated where it fails: nuts `[0, 1]` and bolts `[0, 2]` have equal length,
pairwise distinct values and different value sets. When the shuffle leaves the bolts in place
the call returns normally with `nuts[1] = 1` and `bolts[1] = 2`; when it reverses them the
call reads `nuts[-1]` before it reaches the `throw`. Neither outcome of the shuffle raises the
matching-violation error. -/
theorem sortNutsBolts_missing_undetected :
    sortNutsBolts id 10 [0, 1] [0, 2] = .returned [0, 1] [0, 2] ∧
      sortNutsBolts List.reverse 10 [0, 1] [0, 2] = .fault .outOfBounds := by
  decide

/-- Claim C6, evaluated where it fails: on `nuts = bolts = [0, 1, 1]`, whichever of the three
arrangements of the bolts the shuffle produces and whatever the step budget, the run is still
inside `partition` when the budget ends. The loop has reached a window whose two ends both
hold the pivot 1, which it swaps forever; it neither returns nor raises the matching-violation
error. -/
theorem sortNutsBolts_duplicate_diverges (fuel : Nat) :
    sortNutsBolts (fun _ => [0, 1, 1]) fuel [0, 1, 1] [0, 1, 1] = .fault .outOfFuel ∧
      sortNutsBolts (fun _ => [1, 0, 1]) fuel [0, 1, 1] [0, 1, 1] = .fault .outOfFuel ∧
      sortNutsBolts (fun _ => [1, 1, 0]) fuel [0, 1, 1] [0, 1, 1] = .fault .outOfFuel :=
  ⟨sortNutsBoltsRange_011_011 fuel, sortNutsBoltsRange_011_101 fuel,
    sortNutsBoltsRange_011_110 fuel⟩

/-- Claim C7: when the lengths differ, `sortNutsBolts` raises the invalid-input error before
shuffling or reordering anything: both vectors are as they were passed in, for every shuffle
and every fuel. -/
theorem sortNutsBolts_length_mismatch (shuffle : List Int → List Int) (fuel : Nat)
    (nuts bolts : List Int) (h : nuts.length ≠ bolts.length) :
    sortNutsBolts shuffle fuel nuts bolts = .thrown .invalidInput nuts bolts := by
  unfold sortNutsBolts
  rw [if_pos h]

/-- Claim C7 on three nuts and two bolts. -/
theorem sortNutsBolts_length_mismatch_witness :
    ([0, 1, 2] : List Int).length ≠ ([1, 0] : List Int).length ∧
      sortNutsBolts List.reverse 0 [0, 1, 2] [1, 0] = .thrown .invalidInput [0, 1, 2] [1, 0] :=
  ⟨by decide, sortNutsBolts_length_mismatch List.reverse 0 [0, 1, 2] [1, 0] (by decide)⟩

theorem segment_middle (L X R : List Int) (a b : Int) (ha : a = L.length)
    (hb : b = L.length + X.length - 1) : segment (L ++ X ++ R) a b = X := by
  have h1 : a.toNat = L.length := by omega
  have h2 : (b - a + 1).toNat = X.length := by omega
  unfold segment
  rw [h1, h2, List.append_assoc, List.drop_left, List.take_left]

theorem readAt_outside (L X Y R : List Int) (i : Int) (hlen : X.length = Y.length)
    (hi : i < L.length ∨ (L.length : Int) + X.length - 1 < i) :
    readAt (L ++ Y ++ R) i = readAt (L ++ X ++ R) i := by
  unfold readAt
  by_cases hneg : i < 0
  · rw [if_pos hneg, if_pos hneg]
  · rw [if_neg hneg, if_neg hneg]
    have hget : (L ++ Y ++ R)[i.toNat]? = (L ++ X ++ R)[i.toNat]? := by
      rcases hi with h | h
      · have hlt : i.toNat < L.length := by omega
        rw [List.append_assoc, List.append_assoc, List.getElem?_append_left hlt,
          List.getElem?_append_left hlt]
      · have h1 : (L ++ Y).length ≤ i.toNat := by simp; omega
        have h2 : (L ++ X).length ≤ i.toNat := by simp; omega
        rw [List.getElem?_append_right h1, List.getElem?_append_right h2]
        simp [hlen]
    rw [hget]

/-- Claim C14: for a vector `A`, a range `0 ≤ start < end < size` and a pivot that occurs
exactly once in `A[start..end]`, `partition` returns, given enough fuel, an index `m` with
`start ≤ m ≤ end`; afterwards `A[m] == pivot`, the cells `A[start..m-1]` are less than the
pivot, the cells `A[m+1..end]` are greater, `A[start..end]` is a reordering of its former
contents, the length is unchanged and every cell outside the range is unchanged. -/
theorem partition_range (A : List Int) (start stop pivot : Int) (fuel : Nat)
    (h0 : 0 ≤ start) (hlt : start < stop) (hstop : stop < A.length)
    (hcount : (segment A start stop).count pivot = 1)
    (hfuel : 2 * (stop - start + 1).toNat + 3 ≤ fuel) :
    ∃ A' m, partition fuel A start stop pivot = .ok (A', m) ∧ start ≤ m ∧ m ≤ stop ∧
      A'.length = A.length ∧ readAt A' m = .ok pivot ∧
      (∀ x ∈ segment A' start (m - 1), x < pivot) ∧
      (∀ x ∈ segment A' (m + 1) stop, pivot < x) ∧
      (segment A' start stop).Perm (segment A start stop) ∧
      ∀ i, i < start ∨ stop < i → readAt A' i = readAt A i := by
  have hseglen : (segment A start stop).length = (stop - start + 1).toNat := by
    unfold segment
    rw [List.length_take, List.length_drop]
    omega
  have hA : A = A.take start.toNat ++ segment A start stop
      ++ A.drop (start.toNat + (stop - start + 1).toNat) := by
    unfold segment
    rw [List.append_assoc, ← List.drop_drop, List.take_append_drop, List.take_append_drop]
  have hL : ((A.take start.toNat).length : Int) = start := by
    rw [List.length_take]; omega
  obtain ⟨P, T, hperm, hP, hT, hres⟩ := partition_spec pivot (A.take start.toNat)
    (segment A start stop) (A.drop (start.toNat + (stop - start + 1).toNat)) fuel start stop
    hL.symm (by rw [hL, hseglen]; omega) (by rw [hseglen]; omega) hcount
    (by rw [hseglen]; exact hfuel)
  rw [← hA] at hres
  have hlenPT : (segment A start stop).length = (P ++ pivot :: T).length := hperm.length_eq
  have hPT : (P.length : Int) + T.length + 1 = stop - start + 1 := by
    have h1 : (P ++ pivot :: T).length = (stop - start + 1).toNat := by
      rw [← hlenPT]; exact hseglen
    simp only [List.length_append, List.length_cons] at h1
    omega
  refine ⟨_, _, hres, by omega, by omega, ?_, ?_, ?_, ?_, ?_, ?_⟩
  · conv_rhs => rw [hA]
    simp only [List.length_append, hlenPT]
  · have e : A.take start.toNat ++ (P ++ pivot :: T)
          ++ A.drop (start.toNat + (stop - start + 1).toNat)
        = (A.take start.toNat ++ P)
          ++ pivot :: (T ++ A.drop (start.toNat + (stop - start + 1).toNat)) := by simp
    rw [e]
    exact readAt_append_cons _ _ _ _ (by simp only [List.length_append]; push_cast; rfl)
  · have e : A.take start.toNat ++ (P ++ pivot :: T)
          ++ A.drop (start.toNat + (stop - start + 1).toNat)
        = A.take start.toNat ++ P
          ++ (pivot :: T ++ A.drop (start.toNat + (stop - start + 1).toNat)) := by simp
    rw [e, segment_middle _ P _ start _ hL.symm (by omega)]
    exact hP
  · have e : A.take start.toNat ++ (P ++ pivot :: T)
          ++ A.drop (start.toNat + (stop - start + 1).toNat)
        = (A.take start.toNat ++ P ++ [pivot]) ++ T
          ++ A.drop (start.toNat + (stop - start + 1).toNat) := by simp
    rw [e, segment_middle _ T _ _ stop
      (by simp only [List.length_append, List.length_singleton]; push_cast; rfl)
      (by simp only [List.length_append, List.length_singleton]; push_cast; omega)]
    exact hT
  · rw [segment_middle _ (P ++ pivot :: T) _ start stop hL.symm
      (by simp only [List.length_append, List.length_cons]; push_cast; omega)]
    exact hperm.symm
  · intro i hi
    conv_rhs => rw [hA]
    exact readAt_outside _ _ _ _ i hlenPT (by rw [hL, hseglen]; omega)

/-- Claim C14 on the cells 1..5 of a vector of seven, with the pivot 4. -/
theorem partition_range_witness :
    (0 : Int) ≤ 1 ∧ (1 : Int) < 5 ∧ (5 : Int) < ([9, 5, 3, 8, 4, 1, 0] : List Int).length ∧
      (segment [9, 5, 3, 8, 4, 1, 0] 1 5).count 4 = 1 ∧
      2 * ((5 : Int) - 1 + 1).toNat + 3 ≤ 13 ∧
      ∃ A' m, partition 13 [9, 5, 3, 8, 4, 1, 0] 1 5 4 = .ok (A', m) ∧ 1 ≤ m ∧ m ≤ 5 ∧
        A'.length = ([9, 5, 3, 8, 4, 1, 0] : List Int).length ∧ readAt A' m = .ok 4 ∧
        (∀ x ∈ segment A' 1 (m - 1), x < 4) ∧
        (∀ x ∈ segment A' (m + 1) 5, 4 < x) ∧
        (segment A' 1 5).Perm (segment [9, 5, 3, 8, 4, 1, 0] 1 5) ∧
        ∀ i, i < 1 ∨ 5 < i → readAt A' i = readAt [9, 5, 3, 8, 4, 1, 0] i :=
  ⟨by decide, by decide, by decide, by decide, by decide,
    partition_range [9, 5, 3, 8, 4, 1, 0] 1 5 4 13 (by decide) (by decide) (by decide)
      (by decide) (by decide)⟩

/-- Claim C17, evaluated where it fails: on nuts `[0, 1]` and bolts `[2, 3]` the step over the
range 0..1 takes the bolt 2 as pivot, `partition` of the nuts returns -1, and the next thing the
step does is to read `nuts[-1]`, outside the vector, before its test `n < 0` and its `throw`:
the outcome is an out-of-bounds access, not the matching-violation error. -/
theorem sortNutsBolts_reads_before_check :
    readAt [2, 3] (((0 : Int) + 1).tdiv 2) = .ok 2 ∧
      partition 9 [0, 1] 0 1 2 = .ok ([0, 1], -1) ∧
      readAt [0, 1] (-1) = .error .outOfBounds ∧
      sortNutsBoltsRange 10 [0, 1] [2, 3] 0 1 = .fault .outOfBounds ∧
      sortNutsBolts id 10 [0, 1] [2, 3] = .fault .outOfBounds := by
  decide

end NutsNBolts
